import Mathlib

/-!
Shallow embedding of the `rolling` package (a rotating log-file writer,
sources `rolling.go` and the options file).

Modelling conventions:
* Strings are Lean `String`s; the Go code indexes bytes, the model indexes
  characters, which agree on the ASCII names involved here.
* File contents are lists of bytes (`List Nat`); the filesystem is an
  association list from paths to contents.
* `time.Time` values are modelled in two ways, matching their two uses in
  the source: as a broken-down `DateTime` where the code formats or parses
  backup timestamps, and as an `Int` instant in nanoseconds where the mill
  compares timestamps against a cutoff.  Machine-integer overflow of
  `int64` durations is not modelled (all quantities stay abstract `Int`s).
* `currentTime` is a package-level clock collaborator in the source; model
  functions take the current time as an explicit argument.  The local/UTC
  conversion performed on it by `backupName` happens before the value is
  passed in.
* I/O failure of `os.Rename` / `os.OpenFile` during rotation is modelled
  by a `Fault` oracle passed to the rotation step; `os.MkdirAll` and
  `File.Close` failures are not modelled (no claim depends on them).
* The goroutine/cron machinery around the `fire` channel is modelled as a
  boolean "a time trigger has fired" flag consumed by `Write`, and the
  asynchronous mill signal is modelled by applying `millRunOnce` to the
  candidate list directly.
-/

namespace Rolling

/-- Rolling policies, from the `const` block of rolling.go. -/
def WithoutRolling : Nat := 0

/-- Time-based rolling policy selector. -/
def TimeRolling : Nat := 1

/-- Size-based rolling policy selector. -/
def VolumeRolling : Nat := 2

/-- Suffix of compressed backups (`compressSuffix = ".gz"`). -/
def compressSuffix : String := ".gz"

/-- Fallback maximum size in megabytes (`defaultMaxSize = 100`). -/
def defaultMaxSize : Int := 100

/-- Conversion factor between `MaxSize` and bytes (`megabyte = 1024 * 1024`);
it is a mutable variable in the source only so tests can shrink it, and is
modelled at its default value. -/
def megabyte : Int := 1024 * 1024

/-- Nanoseconds in 24 hours, the "day" used by the age cutoff. -/
def nanosPerDay : Int := 86400000000000

/-- File contents. -/
abbrev Bytes := List Nat

/-- The filesystem: an association list from paths to file contents. -/
abbrev Fs := List (String × Bytes)

/-- Look a path up in the filesystem. -/
def fsGet : Fs → String → Option Bytes
  | [], _ => none
  | (k, v) :: fs, q => if k = q then some v else fsGet fs q

/-- Remove a path from the filesystem. -/
def fsDel : Fs → String → Fs
  | [], _ => []
  | (k, v) :: fs, q => if k = q then fsDel fs q else (k, v) :: fsDel fs q

/-- Create or overwrite a file. -/
def fsSet (fs : Fs) (q : String) (v : Bytes) : Fs := (q, v) :: fsDel fs q

/-- Build a string from its characters. -/
def ofChars (cs : List Char) : String := ⟨cs⟩

/-- Character length of a string (byte length in Go; identical on ASCII). -/
def strLen (s : String) : Nat := s.data.length

/-- First `n` characters, `s[:n]` in Go. -/
def strTake (s : String) (n : Nat) : String := ⟨s.data.take n⟩

/-- Model of `strings.HasPrefix`. -/
def strStartsWith (s p : String) : Bool :=
  decide (s.data.take p.data.length = p.data)

/-- Model of `strings.HasSuffix`. -/
def strEndsWith (s p : String) : Bool :=
  decide (p.data.length ≤ s.data.length ∧
    s.data.drop (s.data.length - p.data.length) = p.data)

/-- Extension of a file name, from the last dot not followed by a path
separator: model of `filepath.Ext` (computed on the character list). -/
def extOf : List Char → List Char
  | [] => []
  | c :: rest =>
    let e := extOf rest
    if e ≠ [] then e
    else if c = '.' ∧ '/' ∉ rest then c :: rest
    else []

/-- Model of `filepath.Ext` on strings. -/
def filepathExt (s : String) : String := ⟨extOf s.data⟩

/-- Model of `filepath.Join dir name` for an already-clean directory path
(the `path.Clean` normalisation is not needed for such inputs). -/
def joinPath (dir name : String) : String :=
  if dir = "" then name else dir ++ "/" ++ name

/-- Decimal digit characters. -/
def digitChar : Nat → Char
  | 0 => '0'
  | 1 => '1'
  | 2 => '2'
  | 3 => '3'
  | 4 => '4'
  | 5 => '5'
  | 6 => '6'
  | 7 => '7'
  | 8 => '8'
  | 9 => '9'
  | _ => '*'

/-- Exactly `w` decimal digits of `n` (most significant first), assuming
`n < 10 ^ w`. -/
def padFix : Nat → Nat → List Char
  | 0, _ => []
  | w + 1, n => digitChar (n / 10 ^ w) :: padFix w (n % 10 ^ w)

/-- Zero-padded decimal rendering of width `w`, as Go's `appendInt` does
for the fixed-width verbs of the layout `2006-01-02T15-04-05.000`: values
below `10 ^ w` render with exactly `w` digits, larger values in full. -/
def padNum (w n : Nat) : List Char :=
  if n < 10 ^ w then padFix w n else Nat.toDigits 10 n

/-- Read exactly `w` decimal digits, accumulating their value. -/
def readFixAux : Nat → Nat → List Char → Option (Nat × List Char)
  | 0, acc, cs => some (acc, cs)
  | _ + 1, _, [] => none
  | w + 1, acc, c :: cs =>
    if '0' ≤ c ∧ c ≤ '9' then readFixAux w (acc * 10 + (c.toNat - 48)) cs
    else none

/-- Read a fixed-width decimal field. -/
def readFix (w : Nat) (cs : List Char) : Option (Nat × List Char) :=
  readFixAux w 0 cs

/-- Consume one expected separator character. -/
def expectChar (c : Char) : List Char → Option (List Char)
  | [] => none
  | x :: xs => if x = c then some xs else none

/-- A broken-down timestamp, as rendered by the layout
`2006-01-02T15-04-05.000`. -/
structure DateTime where
  year : Nat
  month : Nat
  day : Nat
  hour : Nat
  minute : Nat
  second : Nat
  milli : Nat
deriving Repr, DecidableEq

/-- Gregorian leap-year rule, as in Go's `time` package. -/
def isLeapYear (y : Nat) : Bool :=
  y % 4 == 0 && (!(y % 100 == 0) || y % 400 == 0)

/-- Days in a month, as in Go's `time` package. -/
def daysInMonth (y m : Nat) : Nat :=
  if m = 2 then (if isLeapYear y then 29 else 28)
  else if m = 4 ∨ m = 6 ∨ m = 9 ∨ m = 11 then 30
  else 31

/-- The field ranges accepted by Go's `time.Parse` for this layout, plus
the 4-digit-year bound under which the fixed-width rendering applies. -/
def ValidTime (t : DateTime) : Prop :=
  1 ≤ t.month ∧ t.month ≤ 12 ∧ 1 ≤ t.day ∧ t.day ≤ daysInMonth t.year t.month ∧
    t.hour ≤ 23 ∧ t.minute ≤ 59 ∧ t.second ≤ 59 ∧ t.milli ≤ 999 ∧ t.year ≤ 9999

instance (t : DateTime) : Decidable (ValidTime t) := by
  unfold ValidTime; infer_instance

/-- Chronological (field-lexicographic) strict order on timestamps. -/
def chronoLt (t1 t2 : DateTime) : Prop :=
  t1.year < t2.year ∨ (t1.year = t2.year ∧
    (t1.month < t2.month ∨ (t1.month = t2.month ∧
      (t1.day < t2.day ∨ (t1.day = t2.day ∧
        (t1.hour < t2.hour ∨ (t1.hour = t2.hour ∧
          (t1.minute < t2.minute ∨ (t1.minute = t2.minute ∧
            (t1.second < t2.second ∨ (t1.second = t2.second ∧
              t1.milli < t2.milli)))))))))))

instance (t1 t2 : DateTime) : Decidable (chronoLt t1 t2) := by
  unfold chronoLt; infer_instance

/-- Render a timestamp with the layout `2006-01-02T15-04-05.000`
(4-digit year; 2-digit month, day, hour, minute, second; literal
separators; 3-digit milliseconds). -/
def formatDT (t : DateTime) : List Char :=
  padNum 4 t.year ++ ('-' :: padNum 2 t.month) ++ ('-' :: padNum 2 t.day) ++
    ('T' :: padNum 2 t.hour) ++ ('-' :: padNum 2 t.minute) ++
    ('-' :: padNum 2 t.second) ++ ('.' :: padNum 3 t.milli)

/-- Model of `t.Format(backupTimeFormat)`. -/
def formatBackupTime (t : DateTime) : String := ofChars (formatDT t)

/-- Parse the layout `2006-01-02T15-04-05.000`: fixed-width digit fields,
exact separators, full consumption, and the range checks `time.Parse`
performs (month 1-12, day 1..daysIn, hour 0-23, minute/second 0-59). -/
def parseDT (cs : List Char) : Option DateTime := do
  let (y, cs) ← readFix 4 cs
  let cs ← expectChar '-' cs
  let (mo, cs) ← readFix 2 cs
  let cs ← expectChar '-' cs
  let (d, cs) ← readFix 2 cs
  let cs ← expectChar 'T' cs
  let (h, cs) ← readFix 2 cs
  let cs ← expectChar '-' cs
  let (mi, cs) ← readFix 2 cs
  let cs ← expectChar '-' cs
  let (s, cs) ← readFix 2 cs
  let cs ← expectChar '.' cs
  let (ms, cs) ← readFix 3 cs
  if cs = [] ∧ 1 ≤ mo ∧ mo ≤ 12 ∧ 1 ≤ d ∧ d ≤ daysInMonth y mo ∧
      h ≤ 23 ∧ mi ≤ 59 ∧ s ≤ 59 then
    some ⟨y, mo, d, h, mi, s, ms⟩
  else none

/-- Model of `time.Parse(backupTimeFormat, ts)`. -/
def parseBackupTime (s : String) : Option DateTime := parseDT s.data

/-- Days since 1970-01-01 of a civil date (Hinnant's algorithm, matching
Go's absolute-date arithmetic; `Int` division truncates toward zero
exactly as the reference C code expects). -/
def daysFromCivil (y m d : Int) : Int :=
  let y1 := if m ≤ 2 then y - 1 else y
  let era := (if 0 ≤ y1 then y1 else y1 - 399) / 400
  let yoe := y1 - era * 400
  let mp := (m + 9) % 12
  let doy := (153 * mp + 2) / 5 + d - 1
  let doe := yoe * 365 + yoe / 4 - yoe / 100 + doy
  era * 146097 + doe - 719468

/-- The instant (nanoseconds since the epoch, UTC) of a broken-down
timestamp. -/
def dtToNanos (t : DateTime) : Int :=
  (daysFromCivil (t.year : Int) (t.month : Int) (t.day : Int) * 86400 +
      (t.hour : Int) * 3600 + (t.minute : Int) * 60 + (t.second : Int)) *
    1000000000 + (t.milli : Int) * 1000000

/-- The `Logger` struct: the configuration fields plus the active-handle
state.  `file` records whether the `*os.File` handle is set (non-nil); a
set handle always refers to `absPath`.  The mutexes, cron scheduler and
channels are concurrency plumbing handled outside this model. -/
structure Logger where
  logPath : String
  filename : String
  maxAge : Int
  maxRemain : Int
  rollingPolicy : Nat
  maxSize : Int
  compress : Bool
  localTime : Bool
  file : Bool
  absPath : String
deriving Repr, DecidableEq

/-- Model of `Logger.max`: the maximum size in bytes of log files before
rolling. -/
def Logger.max (l : Logger) : Int :=
  if l.maxSize = 0 then defaultMaxSize * megabyte else l.maxSize * megabyte

/-- Model of `defaultLogWriter` (the configuration fields; `os.TempDir()`
is modelled as `/tmp`, and the handle is not yet open). -/
def defaultLogWriter : Logger :=
  { logPath := "/tmp", filename := "all.log", maxAge := 30, maxRemain := 30,
    rollingPolicy := VolumeRolling, maxSize := 15, compress := false,
    localTime := false, file := false, absPath := "" }

/-- Option `WithLogPath`. -/
def withLogPath (p : String) (l : Logger) : Logger := { l with logPath := p }

/-- Option `WithFilename`. -/
def withFilename (n : String) (l : Logger) : Logger := { l with filename := n }

/-- Option `WithMaxAge`. -/
def withMaxAge (a : Int) (l : Logger) : Logger := { l with maxAge := a }

/-- Option `WithMaxRemain`. -/
def withMaxRemain (r : Int) (l : Logger) : Logger := { l with maxRemain := r }

/-- Option `WithMaxSize`. -/
def withMaxSize (s : Int) (l : Logger) : Logger := { l with maxSize := s }

/-- Option `WithTimeRolling`.  (The source's `WithTimePattern` option
refers to a `TimePattern` field the `Logger` struct does not declare, so
it cannot be modelled and no claim mentions it.) -/
def withTimeRolling (l : Logger) : Logger := { l with rollingPolicy := TimeRolling }

/-- Option `WithCompress`. -/
def withCompress (l : Logger) : Logger := { l with compress := true }

/-- Option `WithLocalTime`. -/
def withLocalTime (l : Logger) : Logger := { l with localTime := true }

/-- The configuration produced by `NewWriter(options...)` on its success
path: apply the options to the default logger, then record the joined
active path and the freshly opened handle. -/
def newWriterCfg (opts : List (Logger → Logger)) : Logger :=
  let cfg := opts.foldl (fun l o => o l) defaultLogWriter
  { cfg with absPath := joinPath cfg.logPath cfg.filename, file := true }

/-- The stem of a file name: everything before the extension. -/
def stemOf (filename : String) : String :=
  strTake filename (strLen filename - strLen (filepathExt filename))

/-- Model of `Logger.backupName(dir, filename, local)`: split the file
name at the last dot and insert the formatted timestamp; `t` is the
current time, already converted to local or UTC as the source does. -/
def backupName (dir filename : String) (t : DateTime) : String :=
  joinPath dir (stemOf filename ++ "-" ++ formatBackupTime t ++ filepathExt filename)

/-- Injected I/O failures for the two fallible rotation steps. -/
structure Fault where
  renameFail : Bool
  openFail : Bool
deriving Repr, DecidableEq

/-- No injected failures. -/
def noFault : Fault := ⟨false, false⟩

/-- Model of `Logger.close`: drop the handle (the `File.Close` error is
not modelled). -/
def closeM (l : Logger) : Logger := { l with file := false }

/-- Model of `Logger.openNew`: if a file exists at the active path, rename
it to the backup name; then open the active path with
`O_RDWR|O_CREATE|O_APPEND` (appending to whatever is there, creating an
empty file otherwise).  Returns the error, the logger and the filesystem;
on error the handle stays unset and the filesystem keeps whatever steps
already happened. -/
def openNewM (l : Logger) (fs : Fs) (t : DateTime) (flt : Fault) :
    Option String × Logger × Fs :=
  match fsGet fs l.absPath with
  | some c =>
    if flt.renameFail then (some "can't rename log file", l, fs)
    else
      let fs1 := fsSet (fsDel fs l.absPath) (backupName l.logPath l.filename t) c
      if flt.openFail then (some "can't open new logfile", l, fs1)
      else (none, { l with file := true },
        fsSet fs1 l.absPath ((fsGet fs1 l.absPath).getD []))
  | none =>
    if flt.openFail then (some "can't open new logfile", l, fs)
    else (none, { l with file := true },
      fsSet fs l.absPath ((fsGet fs l.absPath).getD []))

/-- Model of `Logger.rotate`: close, then reopen via `openNewM`.  The
asynchronous mill signal it sends is modelled separately by
`millRunOnce`. -/
def rotateM (l : Logger) (fs : Fs) (t : DateTime) (flt : Fault) :
    Option String × Logger × Fs :=
  openNewM (closeM l) fs t flt

/-- Model of `l.file.Stat().Size()`: `none` is the error case (in
particular the `ErrInvalid` of a nil handle). -/
def statM (l : Logger) (fs : Fs) : Option Int :=
  if l.file then (fsGet fs l.absPath).map (fun c => (c.length : Int)) else none

/-- Model of `l.file.Write(p)`: a nil handle yields `ErrInvalid`
("invalid argument") and writes nothing; a set handle appends. -/
def fileWriteM (l : Logger) (fs : Fs) (p : Bytes) : Nat × Option String × Fs :=
  if l.file then
    (p.length, none, fsSet fs l.absPath (((fsGet fs l.absPath).getD []) ++ p))
  else (0, some "invalid argument", fs)

/-- Result of one `Write` call: the returned count and error, the new
logger and filesystem states, the remaining fire flag, and whether
`rotate()` was invoked during the call. -/
structure WriteResult where
  n : Nat
  err : Option String
  logger : Logger
  fs : Fs
  fire : Bool
  rotated : Bool
deriving Repr, DecidableEq

/-- Model of `Logger.Write`: reject oversized payloads; otherwise decide
rotation by policy (a fired time trigger, or the stat-size safety check)
and forward the payload to the handle.  `fire` models "a value is ready on
`l.fire`", which the `select` consumes. -/
def writeM (l : Logger) (fs : Fs) (fire : Bool) (flt : Fault) (t : DateTime)
    (p : Bytes) : WriteResult :=
  let writeLen : Int := (p.length : Int)
  if writeLen > l.max then
    ⟨0, some ("write length " ++ toString writeLen ++
        " exceeds maximum file size " ++ toString l.max),
      l, fs, fire, false⟩
  else if l.rollingPolicy = TimeRolling then
    if fire then
      match rotateM l fs t flt with
      | (some e, l1, fs1) => ⟨0, some e, l1, fs1, false, true⟩
      | (none, l1, fs1) =>
        let r := fileWriteM l1 fs1 p
        ⟨r.1, r.2.1, l1, r.2.2, false, true⟩
    else
      match statM l fs with
      | some size =>
        if size + writeLen > l.max then
          match rotateM l fs t flt with
          | (some e, l1, fs1) => ⟨0, some e, l1, fs1, false, true⟩
          | (none, l1, fs1) =>
            let r := fileWriteM l1 fs1 p
            ⟨r.1, r.2.1, l1, r.2.2, false, true⟩
        else
          let r := fileWriteM l fs p
          ⟨r.1, r.2.1, l, r.2.2, false, false⟩
      | none =>
        let r := fileWriteM l fs p
        ⟨r.1, r.2.1, l, r.2.2, false, false⟩
  else if l.rollingPolicy = VolumeRolling then
    match statM l fs with
    | some size =>
      if size + writeLen > l.max then
        match rotateM l fs t flt with
        | (some e, l1, fs1) => ⟨0, some e, l1, fs1, fire, true⟩
        | (none, l1, fs1) =>
          let r := fileWriteM l1 fs1 p
          ⟨r.1, r.2.1, l1, r.2.2, fire, true⟩
      else
        let r := fileWriteM l fs p
        ⟨r.1, r.2.1, l, r.2.2, fire, false⟩
    | none =>
      let r := fileWriteM l fs p
      ⟨r.1, r.2.1, l, r.2.2, fire, false⟩
  else
    let r := fileWriteM l fs p
    ⟨r.1, r.2.1, l, r.2.2, fire, false⟩

/-- A classified backup candidate: the file name and its embedded
timestamp as an instant (the `logInfo` struct). -/
structure LogInfo where
  name : String
  timestamp : Int
deriving Repr, DecidableEq

/-- Strip the compression suffix from a name, as the count-enforcement
loop of `millRunOnce` does before deduplicating. -/
def stripGz (s : String) : String :=
  if strEndsWith s compressSuffix then strTake s (strLen s - strLen compressSuffix)
  else s

/-- The count-enforcement loop of `millRunOnce`: walk the (newest-first)
candidates, recording each stripped name in `preserved`; once the number
of distinct stripped names exceeds `maxRemain`, further files are marked
for removal.  Returns (remaining, remove). -/
def millCountAux (maxRemain : Int) : List LogInfo → List String → List LogInfo × List LogInfo
  | [], _ => ([], [])
  | f :: fs, preserved =>
    let fn := stripGz f.name
    let preserved1 := if fn ∈ preserved then preserved else fn :: preserved
    let r := millCountAux maxRemain fs preserved1
    if (preserved1.length : Int) > maxRemain then (r.1, f :: r.2)
    else (f :: r.1, r.2)

/-- The age-enforcement loop of `millRunOnce`: candidates whose embedded
timestamp is strictly before the cutoff are marked for removal.  Returns
(remaining, remove). -/
def millAgeAux (cutoff : Int) : List LogInfo → List LogInfo × List LogInfo
  | [] => ([], [])
  | f :: fs =>
    let r := millAgeAux cutoff fs
    if f.timestamp < cutoff then (r.1, f :: r.2) else (f :: r.1, r.2)

/-- The count-enforcement stage of `millRunOnce`, guarded by
`MaxRemain > 0 && MaxRemain < len(files)`. -/
def millCountStage (l : Logger) (files : List LogInfo) :
    List LogInfo × List LogInfo :=
  if 0 < l.maxRemain ∧ l.maxRemain < (files.length : Int) then
    millCountAux l.maxRemain files []
  else (files, [])

/-- The age-enforcement stage of `millRunOnce`, guarded by `MaxAge > 0`,
with cutoff `currentTime() - MaxAge * 24h`. -/
def millAgeStage (l : Logger) (files : List LogInfo) (now : Int) :
    List LogInfo × List LogInfo :=
  if 0 < l.maxAge then millAgeAux (now - l.maxAge * nanosPerDay) files
  else (files, [])

/-- Model of `Logger.millRunOnce` on an already-classified candidate list
(newest first, as `oldLogFiles` returns it): no-op if retention and
compression are all disabled, else count enforcement then age enforcement
on the remainder.  Returns (surviving, removed). -/
def millRunOnce (l : Logger) (files : List LogInfo) (now : Int) :
    List LogInfo × List LogInfo :=
  if l.maxRemain = 0 ∧ l.maxAge = 0 ∧ l.compress = false then (files, [])
  else
    ((millAgeStage l (millCountStage l files).1 now).1,
      (millCountStage l files).2 ++ (millAgeStage l (millCountStage l files).1 now).2)

/-- The preserved-name accumulator of the count-enforcement loop, replayed
over an already-processed list of candidates (proof device: `millCountAux`
threads exactly this state). -/
def presAfter (acc : List String) (done : List LogInfo) : List String :=
  done.foldl
    (fun acc2 f => if stripGz f.name ∈ acc2 then acc2 else stripGz f.name :: acc2)
    acc

/-- Model of `Logger.prefixAndExt`: the stem plus a dash, and the
extension. -/
def pfxAndExt (l : Logger) : String × String :=
  (stemOf l.filename ++ "-", filepathExt l.filename)

/-- Model of `Logger.timeFromName`: check the fixed affixes, then parse
the timestamp between them. -/
def timeFromName (filename pfx ext : String) : Option DateTime :=
  if strStartsWith filename pfx = false then none
  else if strEndsWith filename ext = false then none
  else parseBackupTime
    (ofChars ((filename.data.take (filename.data.length - ext.data.length)).drop
      pfx.data.length))

/-- One directory entry, as `ioutil.ReadDir` reports it. -/
structure DirEntry where
  name : String
  isDir : Bool
deriving Repr, DecidableEq

/-- The classification loop of `Logger.oldLogFiles`: skip directories,
accept names parsing as plain or compressed backups. -/
def classifyEntries (l : Logger) : List DirEntry → List LogInfo
  | [] => []
  | e :: es =>
    if e.isDir then classifyEntries l es
    else
      match timeFromName e.name (pfxAndExt l).1 (pfxAndExt l).2 with
      | some t => ⟨e.name, dtToNanos t⟩ :: classifyEntries l es
      | none =>
        match timeFromName e.name (pfxAndExt l).1 ((pfxAndExt l).2 ++ compressSuffix) with
        | some t => ⟨e.name, dtToNanos t⟩ :: classifyEntries l es
        | none => classifyEntries l es

/-- Insertion step of the newest-first sort. -/
def insertDesc (f : LogInfo) : List LogInfo → List LogInfo
  | [] => [f]
  | g :: gs => if g.timestamp < f.timestamp then f :: g :: gs else g :: insertDesc f gs

/-- Sort candidates newest first (`sort.Sort(byFormatTime(...))`, whose
`Less` is `timestamp.After`). -/
def sortByTimeDesc (files : List LogInfo) : List LogInfo :=
  files.foldr insertDesc []

/-- Model of `Logger.oldLogFiles` on a directory listing. -/
def oldLogFiles (l : Logger) (entries : List DirEntry) : List LogInfo :=
  sortByTimeDesc (classifyEntries l entries)

/-- Concrete fixture: a healthy size-rolling logger over directory `d`. -/
def fixLogger : Logger :=
  { defaultLogWriter with
      logPath := "d", filename := "a.log", absPath := "d/a.log", file := true }

/-- Concrete fixture: `fixLogger` with a 1 MB limit. -/
def fixLoggerV : Logger := { fixLogger with maxSize := 1 }

/-- Concrete fixture: a default logger switched to time-based rolling. -/
def fixLoggerT : Logger := { newWriterCfg [] with rollingPolicy := TimeRolling }

/-- Concrete fixture: a timestamp used in witnesses. -/
def fixTime : DateTime := ⟨2026, 1, 2, 3, 4, 5, 6⟩

/-- Concrete fixture: `fixLogger` under the time-based policy. -/
def fixLoggerTd : Logger := { fixLogger with rollingPolicy := TimeRolling }

end Rolling

namespace Rolling

theorem fsGet_fsDel_ne (fs : Fs) (q r : String) (h : r ≠ q) :
    fsGet (fsDel fs q) r = fsGet fs r := by
  induction fs with
  | nil => rfl
  | cons kv fs ih =>
    obtain ⟨k, v⟩ := kv
    by_cases hk : k = q
    · subst hk
      simp [fsDel, fsGet, Ne.symm h, ih]
    · by_cases hr : k = r
      · subst hr
        simp [fsDel, fsGet, hk]
      · simp [fsDel, fsGet, hk, hr, ih]

theorem fsGet_fsDel_self (fs : Fs) (q : String) :
    fsGet (fsDel fs q) q = none := by
  induction fs with
  | nil => rfl
  | cons kv fs ih =>
    obtain ⟨k, v⟩ := kv
    by_cases hk : k = q <;> simp [fsDel, fsGet, hk, ih]

theorem fsGet_fsSet_self (fs : Fs) (q : String) (v : Bytes) :
    fsGet (fsSet fs q v) q = some v := by
  simp [fsSet, fsGet]

theorem fsGet_fsSet_ne (fs : Fs) (q r : String) (v : Bytes) (h : r ≠ q) :
    fsGet (fsSet fs q v) r = fsGet fs r := by
  simp [fsSet, fsGet, Ne.symm h, fsGet_fsDel_ne fs q r h]

/-- C9 (counterexample): a logger constructed with no options does not use
the 100 MB-equivalent default: `defaultLogWriter` pins `MaxSize` to 15, so
the write-rejection check and rotation decision use 15 MB. -/
theorem c9_counterexample :
    (newWriterCfg []).max = 15 * 1048576 ∧ (newWriterCfg []).max ≠ 100 * 1048576 := by
  constructor
  · rfl
  · decide

/-- C9 (amended): a logger constructed without a max_size option uses
15 MB-equivalent units (the default configuration sets `MaxSize = 15`);
the fixed 100 MB-equivalent default of `Logger.max` applies exactly to
loggers whose `MaxSize` field is zero. -/
theorem c9_default_max_size :
    (newWriterCfg []).max = 15 * megabyte ∧
      ∀ l : Logger, l.maxSize = 0 → l.max = 100 * megabyte := by
  refine ⟨rfl, fun l h => ?_⟩
  simp [Logger.max, h, defaultMaxSize]

/-- C9 (witness for the amended theorem). -/
theorem c9_default_max_size_witness :
    (newWriterCfg [withMaxSize 0]).maxSize = 0 ∧
      (newWriterCfg [withMaxSize 0]).max = 100 * megabyte :=
  ⟨rfl, c9_default_max_size.2 (newWriterCfg [withMaxSize 0]) rfl⟩

/-- C1: a payload longer than the configured maximum file size is
rejected: `Write` returns `n = 0` and exactly the error message
`write length %d exceeds maximum file size %d`, and the logger state, the
filesystem (no bytes written, no file created) and the pending trigger are
left untouched, with no rotation performed. -/
theorem c1_oversize_write_rejected (l : Logger) (fs : Fs) (fire : Bool)
    (flt : Fault) (t : DateTime) (p : Bytes)
    (h : (p.length : Int) > l.max) :
    writeM l fs fire flt t p =
      ⟨0, some ("write length " ++ toString (p.length : Int) ++
          " exceeds maximum file size " ++ toString l.max),
        l, fs, fire, false⟩ := by
  unfold writeM
  simp [h]

/-- C1 (witness): a 1 MiB + 1 payload against a 1 MB limit. -/
theorem c1_oversize_write_rejected_witness :
    ((List.replicate 1048577 (0 : Nat)).length : Int) > (newWriterCfg [withMaxSize 1]).max ∧
      writeM (newWriterCfg [withMaxSize 1]) [] false noFault
          ⟨2026, 1, 1, 0, 0, 0, 0⟩ (List.replicate 1048577 (0 : Nat)) =
        ⟨0, some ("write length " ++ toString ((List.replicate 1048577 (0 : Nat)).length : Int) ++
            " exceeds maximum file size " ++ toString (newWriterCfg [withMaxSize 1]).max),
          newWriterCfg [withMaxSize 1], [], false, false⟩ := by
  have h : ((List.replicate 1048577 (0 : Nat)).length : Int) > (newWriterCfg [withMaxSize 1]).max := by
    rw [List.length_replicate]
    decide
  exact ⟨h, c1_oversize_write_rejected _ _ _ _ _ _ h⟩

/-- C2 (counterexample): rotation failure is not self-healing.  A
time-triggered write whose reopen fails returns the error with the handle
unset, and the next write does not attempt a fresh open: it fails with the
nil-handle `invalid argument` error, leaving the handle unset and the
filesystem untouched. -/
theorem c2_counterexample :
    (writeM { newWriterCfg [] with rollingPolicy := TimeRolling }
        [("/tmp/all.log", [7])] true ⟨false, true⟩ ⟨2026, 1, 1, 0, 0, 0, 0⟩
        [1, 2]).err = some "can't open new logfile" ∧
      (writeM { newWriterCfg [] with rollingPolicy := TimeRolling }
          [("/tmp/all.log", [7])] true ⟨false, true⟩ ⟨2026, 1, 1, 0, 0, 0, 0⟩
          [1, 2]).logger.file = false ∧
      writeM (writeM { newWriterCfg [] with rollingPolicy := TimeRolling }
            [("/tmp/all.log", [7])] true ⟨false, true⟩ ⟨2026, 1, 1, 0, 0, 0, 0⟩
            [1, 2]).logger
          (writeM { newWriterCfg [] with rollingPolicy := TimeRolling }
            [("/tmp/all.log", [7])] true ⟨false, true⟩ ⟨2026, 1, 1, 0, 0, 0, 0⟩
            [1, 2]).fs false noFault ⟨2026, 1, 1, 0, 1, 0, 0⟩ [3] =
        ⟨0, some "invalid argument",
          (writeM { newWriterCfg [] with rollingPolicy := TimeRolling }
            [("/tmp/all.log", [7])] true ⟨false, true⟩ ⟨2026, 1, 1, 0, 0, 0, 0⟩
            [1, 2]).logger,
          (writeM { newWriterCfg [] with rollingPolicy := TimeRolling }
            [("/tmp/all.log", [7])] true ⟨false, true⟩ ⟨2026, 1, 1, 0, 0, 0, 0⟩
            [1, 2]).fs, false, false⟩ := by
  refine ⟨?_, ?_, ?_⟩ <;> decide

theorem openNewM_err_logger (l : Logger) (fs : Fs) (t : DateTime) (flt : Fault)
    (e : String) (h : (openNewM l fs t flt).1 = some e) :
    (openNewM l fs t flt).2.1 = l := by
  unfold openNewM at h ⊢
  rcases hg : fsGet fs l.absPath with _ | c <;>
    by_cases h1 : flt.renameFail <;> by_cases h2 : flt.openFail <;>
    simp [hg, h1, h2] at h ⊢

theorem rotateM_err_logger (l : Logger) (fs : Fs) (t : DateTime) (flt : Fault)
    (e : String) (hrot : (rotateM l fs t flt).1 = some e) :
    (rotateM l fs t flt).2.1 = { l with file := false } :=
  openNewM_err_logger (closeM l) fs t flt e hrot

theorem write_nil_handle (l : Logger) (fs : Fs) (fire : Bool) (flt : Fault)
    (t : DateTime) (p : Bytes)
    (hfile : l.file = false)
    (hnofire : l.rollingPolicy = TimeRolling → fire = false)
    (hlen : ¬ ((p.length : Int) > l.max)) :
    writeM l fs fire flt t p = ⟨0, some "invalid argument", l, fs, fire, false⟩ := by
  unfold writeM
  rw [if_neg hlen]
  by_cases hT : l.rollingPolicy = TimeRolling
  · have hf : fire = false := hnofire hT
    subst hf
    simp [hT, statM, fileWriteM, hfile]
  · by_cases hV : l.rollingPolicy = VolumeRolling
    · have hVT : ¬(VolumeRolling = TimeRolling) := by decide
      simp [hT, hV, hVT, statM, fileWriteM, hfile]
    · simp [hT, hV, statM, fileWriteM, hfile]

/-- C2 (amended): if a rotation fails during a `Write` call — whether the
rotation was trigger-fired under the time policy, or size-triggered under
the time policy's safety net or the volume policy — the error is returned
to that caller with `n = 0` and the active handle is left unset; a
subsequent `Write` that does not itself trigger a rotation does not reopen
the active file — it returns `n = 0` with the nil-handle
`invalid argument` error and changes nothing. -/
theorem c2_failed_rotation_not_self_healing (l : Logger) (fs : Fs)
    (fire : Bool) (flt : Fault) (t : DateTime) (p : Bytes) (e : String)
    (hlen : ¬ ((p.length : Int) > l.max))
    (hcase : (l.rollingPolicy = TimeRolling ∧ fire = true) ∨
      ((l.rollingPolicy = TimeRolling ∧ fire = false ∨
          l.rollingPolicy = VolumeRolling) ∧
        l.file = true ∧ ∃ c, fsGet fs l.absPath = some c ∧
          (c.length : Int) + (p.length : Int) > l.max))
    (hrot : (rotateM l fs t flt).1 = some e) :
    (writeM l fs fire flt t p).n = 0 ∧
      (writeM l fs fire flt t p).err = some e ∧
      (writeM l fs fire flt t p).logger.file = false ∧
      ∀ (fs2 : Fs) (p2 : Bytes) (fire2 : Bool) (flt2 : Fault) (t2 : DateTime),
        ((writeM l fs fire flt t p).logger.rollingPolicy = TimeRolling →
          fire2 = false) →
        ¬ ((p2.length : Int) > (writeM l fs fire flt t p).logger.max) →
        writeM (writeM l fs fire flt t p).logger fs2 fire2 flt2 t2 p2 =
          ⟨0, some "invalid argument", (writeM l fs fire flt t p).logger,
            fs2, fire2, false⟩ := by
  have hlog := rotateM_err_logger l fs t flt e hrot
  have main : writeM l fs fire flt t p =
      ⟨0, some e, { l with file := false }, (rotateM l fs t flt).2.2,
        (if l.rollingPolicy = TimeRolling then false else fire), true⟩ := by
    rcases hres : rotateM l fs t flt with ⟨oe, l1, fs1⟩
    have hoe : oe = some e := by rw [hres] at hrot; exact hrot
    subst hoe
    have hl1 : l1 = { l with file := false } := by
      have h2 := hlog
      rw [hres] at h2
      exact h2
    subst hl1
    rcases hcase with ⟨hT, hf⟩ | ⟨hpol, hfile, c, hc, hsz⟩
    · subst hf
      simp only [writeM, hT, hres]
      rw [if_neg hlen]
      simp [hT]
    · have hstatM : statM l fs = some (c.length : Int) := by
        simp [statM, hfile, hc]
      rcases hpol with ⟨hT, hf⟩ | hV
      · subst hf
        simp only [writeM, hT, hstatM, hres]
        rw [if_neg hlen]
        simp [hsz, hT]
      · have hVT : ¬(VolumeRolling = TimeRolling) := by decide
        simp only [writeM, hV, hstatM, hres]
        rw [if_neg hlen]
        simp [hsz, hV, hVT]
  rw [main]
  refine ⟨rfl, rfl, rfl, fun fs2 p2 fire2 flt2 t2 hf2 hlen2 => ?_⟩
  exact write_nil_handle _ _ _ _ _ _ rfl hf2 hlen2

/-- C2 (witness): the scenario of `c2_counterexample`, through the amended
theorem. -/
theorem c2_failed_rotation_not_self_healing_witness :
    (fixLoggerT.rollingPolicy = TimeRolling ∧
        ¬ ((([1, 2] : Bytes).length : Int) > fixLoggerT.max) ∧
        (rotateM fixLoggerT [("/tmp/all.log", [7])] fixTime ⟨false, true⟩).1 =
          some "can't open new logfile") ∧
      (writeM fixLoggerT [("/tmp/all.log", [7])] true ⟨false, true⟩ fixTime [1, 2]).n = 0 ∧
      (writeM fixLoggerT [("/tmp/all.log", [7])] true ⟨false, true⟩ fixTime [1, 2]).err =
        some "can't open new logfile" ∧
      (writeM fixLoggerT [("/tmp/all.log", [7])] true ⟨false, true⟩ fixTime [1, 2]).logger.file = false ∧
      writeM (writeM fixLoggerT [("/tmp/all.log", [7])] true ⟨false, true⟩ fixTime [1, 2]).logger
          [] false noFault fixTime [3] =
        ⟨0, some "invalid argument",
          (writeM fixLoggerT [("/tmp/all.log", [7])] true ⟨false, true⟩ fixTime [1, 2]).logger,
          [], false, false⟩ := by
  have h := c2_failed_rotation_not_self_healing fixLoggerT
    [("/tmp/all.log", [7])] true ⟨false, true⟩ fixTime [1, 2]
    "can't open new logfile" (by decide) (Or.inl ⟨rfl, rfl⟩) (by decide)
  exact ⟨⟨rfl, by decide, by decide⟩, h.1, h.2.1, h.2.2.1,
    h.2.2.2 [] [3] false noFault fixTime (fun _ => rfl) (by decide)⟩

theorem rotateM_success_some (l : Logger) (fs : Fs) (t : DateTime) (c : Bytes)
    (hc : fsGet fs l.absPath = some c)
    (hfresh : fsGet fs (backupName l.logPath l.filename t) = none) :
    rotateM l fs t noFault =
      (none, { l with file := true },
        fsSet (fsSet (fsDel fs l.absPath) (backupName l.logPath l.filename t) c)
          l.absPath []) := by
  have hne : l.absPath ≠ backupName l.logPath l.filename t := by
    intro hEq
    rw [← hEq, hc] at hfresh
    cases hfresh
  have hinner : fsGet (fsSet (fsDel fs l.absPath)
      (backupName l.logPath l.filename t) c) l.absPath = none := by
    rw [fsGet_fsSet_ne _ _ _ _ hne]
    exact fsGet_fsDel_self fs l.absPath
  unfold rotateM openNewM closeM noFault
  simp [hc, hinner]

theorem rotateM_success_none (l : Logger) (fs : Fs) (t : DateTime)
    (hc : fsGet fs l.absPath = none) :
    rotateM l fs t noFault = (none, { l with file := true }, fsSet fs l.absPath []) := by
  unfold rotateM openNewM closeM noFault
  simp [hc]

/-- C4: for every `rotate()` (no I/O faults, fresh backup name): when a
file exists at the active path it is renamed to the backup name and a
fresh empty file is opened at the active path — afterwards the active path
holds exactly the empty post-rotation file, the one new backup holds
exactly the pre-rotation content, and no other path changes; when no file
exists at the active path the rename step is skipped without error and a
fresh active file is still opened. -/
theorem c4_rotate_invariant (l : Logger) (fs : Fs) (t : DateTime)
    (hfresh : fsGet fs (backupName l.logPath l.filename t) = none) :
    (∀ c, fsGet fs l.absPath = some c →
      (rotateM l fs t noFault).1 = none ∧
      (rotateM l fs t noFault).2.1 = { l with file := true } ∧
      fsGet (rotateM l fs t noFault).2.2 l.absPath = some [] ∧
      fsGet (rotateM l fs t noFault).2.2 (backupName l.logPath l.filename t) = some c ∧
      ∀ q, q ≠ l.absPath → q ≠ backupName l.logPath l.filename t →
        fsGet (rotateM l fs t noFault).2.2 q = fsGet fs q) ∧
    (fsGet fs l.absPath = none →
      (rotateM l fs t noFault).1 = none ∧
      (rotateM l fs t noFault).2.1 = { l with file := true } ∧
      fsGet (rotateM l fs t noFault).2.2 l.absPath = some [] ∧
      ∀ q, q ≠ l.absPath →
        fsGet (rotateM l fs t noFault).2.2 q = fsGet fs q) := by
  constructor
  · intro c hc
    have hne : backupName l.logPath l.filename t ≠ l.absPath := by
      intro hEq
      rw [hEq, hc] at hfresh
      cases hfresh
    have hrot := rotateM_success_some l fs t c hc hfresh
    refine ⟨by rw [hrot], by rw [hrot], ?_, ?_, ?_⟩
    · rw [hrot]
      exact fsGet_fsSet_self _ _ _
    · rw [hrot]
      rw [fsGet_fsSet_ne _ _ _ _ hne]
      exact fsGet_fsSet_self _ _ _
    · intro q hq1 hq2
      rw [hrot]
      rw [fsGet_fsSet_ne _ _ _ _ hq1, fsGet_fsSet_ne _ _ _ _ hq2]
      exact fsGet_fsDel_ne fs l.absPath q hq1
  · intro hc
    have hrot := rotateM_success_none l fs t hc
    refine ⟨by rw [hrot], by rw [hrot], ?_, ?_⟩
    · rw [hrot]
      exact fsGet_fsSet_self _ _ _
    · intro q hq
      rw [hrot]
      exact fsGet_fsSet_ne _ _ _ _ hq

/-- C4 (witness): rotating a two-file directory. -/
theorem c4_rotate_invariant_witness :
    (fsGet [("d/a.log", [1, 2]), ("d/other", [9])]
        (backupName "d" "a.log" fixTime) = none ∧
      fsGet [("d/a.log", [1, 2]), ("d/other", [9])] "d/a.log" = some [1, 2]) ∧
      (rotateM fixLogger [("d/a.log", [1, 2]), ("d/other", [9])] fixTime noFault).1 = none ∧
      fsGet (rotateM fixLogger [("d/a.log", [1, 2]), ("d/other", [9])] fixTime noFault).2.2
        "d/a.log" = some [] ∧
      fsGet (rotateM fixLogger [("d/a.log", [1, 2]), ("d/other", [9])] fixTime noFault).2.2
        (backupName "d" "a.log" fixTime) = some [1, 2] ∧
      fsGet (rotateM fixLogger [("d/a.log", [1, 2]), ("d/other", [9])] fixTime noFault).2.2
        "d/other" = some [9] := by
  have h := (c4_rotate_invariant fixLogger
    [("d/a.log", [1, 2]), ("d/other", [9])] fixTime (by decide)).1 [1, 2] (by decide)
  refine ⟨⟨by decide, by decide⟩, h.1, h.2.2.1, h.2.2.2.1, ?_⟩
  have h5 := h.2.2.2.2 "d/other" (by decide) (by decide)
  rw [h5]
  decide

/-- C3: for every in-limit `Write` in a healthy state (open handle, file
present, fresh backup name, no I/O faults), a rotation happens exactly
when the policy demands it — under size-based policy when the active size
plus the payload would exceed the maximum, under time-based policy when a
trigger has fired or (safety net) the size check trips, and never
otherwise — and the payload lands after the rotation decision: the write
succeeds in full and the active file afterwards holds exactly the
post-rotation (empty) or pre-write content followed by the payload. -/
theorem c3_rotation_condition (l : Logger) (fs : Fs) (fire : Bool)
    (t : DateTime) (p c : Bytes)
    (hopen : l.file = true)
    (hstat : fsGet fs l.absPath = some c)
    (hlen : ¬ ((p.length : Int) > l.max))
    (hfresh : fsGet fs (backupName l.logPath l.filename t) = none) :
    ((writeM l fs fire noFault t p).rotated = true ↔
      ((l.rollingPolicy = VolumeRolling ∧ (c.length : Int) + (p.length : Int) > l.max) ∨
        (l.rollingPolicy = TimeRolling ∧
          (fire = true ∨ (c.length : Int) + (p.length : Int) > l.max)))) ∧
      (writeM l fs fire noFault t p).err = none ∧
      (writeM l fs fire noFault t p).n = p.length ∧
      fsGet (writeM l fs fire noFault t p).fs l.absPath =
        some ((if (writeM l fs fire noFault t p).rotated then [] else c) ++ p) := by
  have hstatM : statM l fs = some (c.length : Int) := by
    simp [statM, hopen, hstat]
  have hrot := rotateM_success_some l fs t c hstat hfresh
  have hTV : ¬(TimeRolling = VolumeRolling) := by decide
  have hVT : ¬(VolumeRolling = TimeRolling) := by decide
  by_cases hT : l.rollingPolicy = TimeRolling
  · by_cases hf : fire = true
    · have hw : writeM l fs fire noFault t p =
          ⟨p.length, none, { l with file := true },
            fsSet (fsSet (fsSet (fsDel fs l.absPath)
                (backupName l.logPath l.filename t) c) l.absPath [])
              l.absPath ([] ++ p), false, true⟩ := by
        simp only [writeM, hT, hf, hrot]
        rw [if_neg hlen]
        simp [fileWriteM, fsGet_fsSet_self]
      rw [hw]
      refine ⟨by simp [hT, hf], rfl, rfl, ?_⟩
      simp [fsGet_fsSet_self]
    · by_cases hsz : (c.length : Int) + (p.length : Int) > l.max
      · have hw : writeM l fs fire noFault t p =
            ⟨p.length, none, { l with file := true },
              fsSet (fsSet (fsSet (fsDel fs l.absPath)
                  (backupName l.logPath l.filename t) c) l.absPath [])
                l.absPath ([] ++ p), false, true⟩ := by
          simp only [writeM, hT, hf, hstatM, hrot]
          rw [if_neg hlen]
          simp [hsz, fileWriteM, fsGet_fsSet_self]
        rw [hw]
        refine ⟨by simp [hT, hsz], rfl, rfl, ?_⟩
        simp [fsGet_fsSet_self]
      · have hw : writeM l fs fire noFault t p =
            ⟨p.length, none, l, fsSet fs l.absPath (c ++ p), false, false⟩ := by
          simp only [writeM, hT, hf, hstatM]
          rw [if_neg hlen]
          simp [hsz, fileWriteM, hopen, hstat]
        rw [hw]
        refine ⟨by simp [hT, hf, hsz, hTV], rfl, rfl, ?_⟩
        simp [fsGet_fsSet_self]
  · by_cases hV : l.rollingPolicy = VolumeRolling
    · by_cases hsz : (c.length : Int) + (p.length : Int) > l.max
      · have hw : writeM l fs fire noFault t p =
            ⟨p.length, none, { l with file := true },
              fsSet (fsSet (fsSet (fsDel fs l.absPath)
                  (backupName l.logPath l.filename t) c) l.absPath [])
                l.absPath ([] ++ p), fire, true⟩ := by
          simp only [writeM, hT, hV, hstatM, hrot]
          rw [if_neg hlen]
          simp [hsz, fileWriteM, fsGet_fsSet_self, hVT]
        rw [hw]
        refine ⟨by simp [hV, hsz, hT], rfl, rfl, ?_⟩
        simp [fsGet_fsSet_self]
      · have hw : writeM l fs fire noFault t p =
            ⟨p.length, none, l, fsSet fs l.absPath (c ++ p), fire, false⟩ := by
          simp only [writeM, hT, hV, hstatM]
          rw [if_neg hlen]
          simp [hsz, fileWriteM, hopen, hstat, hVT]
        rw [hw]
        refine ⟨by simp [hT, hV, hsz, hVT], rfl, rfl, ?_⟩
        simp [fsGet_fsSet_self]
    · have hw : writeM l fs fire noFault t p =
          ⟨p.length, none, l, fsSet fs l.absPath (c ++ p), fire, false⟩ := by
        simp only [writeM, hT, hV]
        rw [if_neg hlen]
        simp [fileWriteM, hopen, hstat]
      rw [hw]
      refine ⟨by simp [hT, hV], rfl, rfl, ?_⟩
      simp [fsGet_fsSet_self]

/-- C3 (witness): a time-trigger-fired rotation under the time policy. -/
theorem c3_rotation_condition_witness :
    ((writeM fixLoggerTd [("d/a.log", [7])] true noFault fixTime [1, 2, 3]).rotated = true ↔
      ((fixLoggerTd.rollingPolicy = VolumeRolling ∧
          (([7] : Bytes).length : Int) + (([1, 2, 3] : Bytes).length : Int) > fixLoggerTd.max) ∨
        (fixLoggerTd.rollingPolicy = TimeRolling ∧
          (true = true ∨ (([7] : Bytes).length : Int) + (([1, 2, 3] : Bytes).length : Int) >
            fixLoggerTd.max)))) ∧
      (writeM fixLoggerTd [("d/a.log", [7])] true noFault fixTime [1, 2, 3]).err = none ∧
      (writeM fixLoggerTd [("d/a.log", [7])] true noFault fixTime [1, 2, 3]).n =
        ([1, 2, 3] : Bytes).length ∧
      fsGet (writeM fixLoggerTd [("d/a.log", [7])] true noFault fixTime [1, 2, 3]).fs
          fixLoggerTd.absPath =
        some ((if (writeM fixLoggerTd [("d/a.log", [7])] true noFault fixTime
            [1, 2, 3]).rotated then [] else [7]) ++ [1, 2, 3]) :=
  c3_rotation_condition fixLoggerTd [("d/a.log", [7])] true fixTime
    [1, 2, 3] [7] rfl (by decide) (by decide) (by decide)

theorem millAgeAux_kept (cutoff : Int) (files : List LogInfo) :
    ∀ f ∈ (millAgeAux cutoff files).1, ¬ f.timestamp < cutoff := by
  induction files with
  | nil => intro f hf; cases hf
  | cons g fs ih =>
    intro f hf
    simp only [millAgeAux] at hf
    by_cases h : g.timestamp < cutoff
    · rw [if_pos h] at hf
      exact ih f hf
    · rw [if_neg h] at hf
      rcases List.mem_cons.mp hf with rfl | hf2
      · exact h
      · exact ih f hf2

theorem millAgeAux_kept_subset (cutoff : Int) (files : List LogInfo) :
    ∀ f ∈ (millAgeAux cutoff files).1, f ∈ files := by
  induction files with
  | nil => intro f hf; cases hf
  | cons g fs ih =>
    intro f hf
    simp only [millAgeAux] at hf
    by_cases h : g.timestamp < cutoff
    · rw [if_pos h] at hf
      exact List.mem_cons_of_mem g (ih f hf)
    · rw [if_neg h] at hf
      rcases List.mem_cons.mp hf with rfl | hf2
      · exact List.mem_cons_self f fs
      · exact List.mem_cons_of_mem g (ih f hf2)

theorem millAgeAux_remove (cutoff : Int) (files : List LogInfo) :
    ∀ f ∈ files, f.timestamp < cutoff → f ∈ (millAgeAux cutoff files).2 := by
  induction files with
  | nil => intro f hf; cases hf
  | cons g fs ih =>
    intro f hf hlt
    simp only [millAgeAux]
    rcases List.mem_cons.mp hf with rfl | hf2
    · rw [if_pos hlt]
      exact List.mem_cons_self f _
    · by_cases h : g.timestamp < cutoff
      · rw [if_pos h]
        exact List.mem_cons_of_mem g (ih f hf2 hlt)
      · rw [if_neg h]
        exact ih f hf2 hlt

theorem millCountAux_all_removed (K : Int) (files : List LogInfo) (P : List String)
    (h : (P.length : Int) > K) : millCountAux K files P = ([], files) := by
  induction files generalizing P with
  | nil => rfl
  | cons f fs ih =>
    simp only [millCountAux]
    set P1 := if stripGz f.name ∈ P then P else stripGz f.name :: P with hP1
    have hlen : (P.length : Int) ≤ (P1.length : Int) := by
      rw [hP1]
      split
      · exact le_refl _
      · simp
    have h2 : (P1.length : Int) > K := lt_of_lt_of_le h hlen
    rw [ih P1 h2, if_pos h2]

theorem millCountAux_split (K : Int) (files : List LogInfo) (P : List String) :
    ∃ m, millCountAux K files P = (files.take m, files.drop m) := by
  induction files generalizing P with
  | nil => exact ⟨0, rfl⟩
  | cons f fs ih =>
    simp only [millCountAux]
    set P1 := if stripGz f.name ∈ P then P else stripGz f.name :: P with hP1
    by_cases h : (P1.length : Int) > K
    · refine ⟨0, ?_⟩
      rw [millCountAux_all_removed K fs P1 h, if_pos h]
      rfl
    · obtain ⟨m, hm⟩ := ih P1
      refine ⟨m + 1, ?_⟩
      rw [hm, if_neg h]
      simp [List.take_succ_cons, List.drop_succ_cons]

theorem millCountAux_mem (K : Int) (files : List LogInfo) (P : List String) :
    ∀ f ∈ files, f ∈ (millCountAux K files P).1 ∨ f ∈ (millCountAux K files P).2 := by
  obtain ⟨m, hm⟩ := millCountAux_split K files P
  rw [hm]
  intro f hf
  rw [← List.take_append_drop m files] at hf
  simpa using List.mem_append.mp hf

theorem millCountStage_mem (l : Logger) (files : List LogInfo) :
    ∀ f ∈ files, f ∈ (millCountStage l files).1 ∨ f ∈ (millCountStage l files).2 := by
  intro f hf
  unfold millCountStage
  split
  · exact millCountAux_mem _ _ _ f hf
  · exact Or.inl hf

theorem millRunOnce_age_removed (l : Logger) (files : List LogInfo) (now : Int)
    (hA : 0 < l.maxAge) :
    (∀ f ∈ (millRunOnce l files now).1,
        ¬ (f.timestamp < now - l.maxAge * nanosPerDay)) ∧
      ∀ f ∈ files, f.timestamp < now - l.maxAge * nanosPerDay →
        f ∈ (millRunOnce l files now).2 := by
  have hguard : ¬ (l.maxRemain = 0 ∧ l.maxAge = 0 ∧ l.compress = false) := by
    rintro ⟨-, h2, -⟩
    rw [h2] at hA
    exact lt_irrefl 0 hA
  rw [millRunOnce, if_neg hguard]
  constructor
  · intro f hf
    rw [millAgeStage, if_pos hA] at hf
    exact millAgeAux_kept _ _ f hf
  · intro f hf hlt
    rcases millCountStage_mem l files f hf with h1 | h2
    · refine List.mem_append.mpr (Or.inr ?_)
      rw [millAgeStage, if_pos hA]
      exact millAgeAux_remove _ _ f h1 hlt
    · exact List.mem_append.mpr (Or.inl h2)

/-- C7: for every sweep pass with max-age `A > 0`, the cutoff is
`now - A * 24h`; every candidate (in particular every candidate surviving
count enforcement) whose embedded timestamp is older than the cutoff is
marked for removal, and after the pass no surviving backup has an embedded
timestamp older than the cutoff. -/
theorem c7_age_enforcement (l : Logger) (A : Int) (files : List LogInfo)
    (now : Int) (hA : 0 < A) (hAge : l.maxAge = A) :
    (∀ f ∈ (millRunOnce l files now).1, ¬ (f.timestamp < now - A * nanosPerDay)) ∧
      ∀ f ∈ files, f.timestamp < now - A * nanosPerDay →
        f ∈ (millRunOnce l files now).2 := by
  have h := millRunOnce_age_removed l files now (by rw [hAge]; exact hA)
  rw [hAge] at h
  exact h

/-- C7 (witness): a two-day-old backup against `maxAge = 1`. -/
theorem c7_age_enforcement_witness :
    ((0 : Int) < 1 ∧ ({ defaultLogWriter with maxAge := 1 } : Logger).maxAge = 1) ∧
      (⟨"a-old.log", 0⟩ : LogInfo) ∈
        (millRunOnce { defaultLogWriter with maxAge := 1 }
          [⟨"a-new.log", 173000000000000⟩, ⟨"a-old.log", 0⟩]
          (2 * 86400000000000)).2 := by
  have h := (c7_age_enforcement { defaultLogWriter with maxAge := 1 } 1
    [⟨"a-new.log", 173000000000000⟩, ⟨"a-old.log", 0⟩] (2 * 86400000000000)
    (by decide) rfl).2 ⟨"a-old.log", 0⟩ (by decide) (by decide)
  exact ⟨⟨by decide, rfl⟩, h⟩

theorem millCountAux_card (K : Int) (files : List LogInfo) (P : List String) :
    ((((millCountAux K files P).1.map (fun f => stripGz f.name)).toFinset ∪
        P.toFinset).card) ≤ Max.max K.toNat P.toFinset.card := by
  induction files generalizing P with
  | nil =>
    simp only [millCountAux, List.map_nil, List.toFinset_nil, Finset.empty_union]
    exact le_max_right _ _
  | cons f fs ih =>
    simp only [millCountAux]
    set P1 := if stripGz f.name ∈ P then P else stripGz f.name :: P with hP1
    by_cases h : (P1.length : Int) > K
    · rw [millCountAux_all_removed K fs P1 h, if_pos h]
      simp only [List.map_nil, List.toFinset_nil, Finset.empty_union]
      exact le_max_right _ _
    · rw [if_neg h]
      have hmemP1 : stripGz f.name ∈ P1 := by
        rw [hP1]
        split
        · assumption
        · exact List.mem_cons_self _ _
      have hPsub : P.toFinset ⊆ P1.toFinset := by
        intro x hx
        rw [hP1]
        split
        · exact hx
        · rw [List.toFinset_cons]
          exact Finset.mem_insert_of_mem hx
      have hsub :
          ((f :: (millCountAux K fs P1).1).map (fun g => stripGz g.name)).toFinset ∪
              P.toFinset ⊆
            ((millCountAux K fs P1).1.map (fun g => stripGz g.name)).toFinset ∪
              P1.toFinset := by
        intro x hx
        rcases Finset.mem_union.mp hx with hx1 | hx2
        · rw [List.map_cons, List.toFinset_cons] at hx1
          rcases Finset.mem_insert.mp hx1 with rfl | hx3
          · exact Finset.mem_union_right _ (List.mem_toFinset.mpr hmemP1)
          · exact Finset.mem_union_left _ hx3
        · exact Finset.mem_union_right _ (hPsub hx2)
      have hK0 : (0 : Int) ≤ K := le_trans (Int.ofNat_nonneg _) (not_lt.mp h)
      have hlenP1 : P1.length ≤ K.toNat := (Int.le_toNat hK0).mpr (not_lt.mp h)
      have hcardP1 : P1.toFinset.card ≤ K.toNat :=
        le_trans (List.toFinset_card_le P1) hlenP1
      calc (((f :: (millCountAux K fs P1).1).map (fun g => stripGz g.name)).toFinset ∪
            P.toFinset).card
          ≤ (((millCountAux K fs P1).1.map (fun g => stripGz g.name)).toFinset ∪
            P1.toFinset).card := Finset.card_le_card hsub
        _ ≤ Max.max K.toNat P1.toFinset.card := ih P1
        _ = K.toNat := max_eq_left hcardP1
        _ ≤ Max.max K.toNat P.toFinset.card := le_max_left _ _

theorem millRunOnce_card (l : Logger) (files : List LogInfo) (now : Int)
    (hK : 0 < l.maxRemain) :
    ((millRunOnce l files now).1.map (fun f => stripGz f.name)).toFinset.card ≤
      l.maxRemain.toNat := by
  have hguard : ¬ (l.maxRemain = 0 ∧ l.maxAge = 0 ∧ l.compress = false) := by
    rintro ⟨h1, -, -⟩
    rw [h1] at hK
    exact lt_irrefl 0 hK
  rw [millRunOnce, if_neg hguard]
  have hcount : ((millCountStage l files).1.map (fun f => stripGz f.name)).toFinset.card ≤
      l.maxRemain.toNat := by
    rw [millCountStage]
    split
    · have h := millCountAux_card l.maxRemain files []
      simpa using h
    · rename_i hcond
      have hlen : (files.length : Int) ≤ l.maxRemain := by
        rcases not_and_or.mp hcond with h1 | h2
        · exact absurd hK h1
        · exact not_lt.mp h2
      have hlen2 : files.length ≤ l.maxRemain.toNat := by
        rw [Int.le_toNat (le_of_lt hK)]
        exact hlen
      calc ((files.map (fun f => stripGz f.name)).toFinset.card)
          ≤ (files.map (fun f => stripGz f.name)).length := List.toFinset_card_le _
        _ = files.length := List.length_map _ _
        _ ≤ l.maxRemain.toNat := hlen2
  refine le_trans (Finset.card_le_card ?_) hcount
  intro x hx
  rw [List.mem_toFinset, List.mem_map] at hx ⊢
  obtain ⟨f, hf, hfx⟩ := hx
  refine ⟨f, ?_, hfx⟩
  rw [millAgeStage] at hf
  split at hf
  · exact millAgeAux_kept_subset _ _ f hf
  · exact hf

/-- C10: a logger constructed by `NewWriter` with no options has retention
enabled by default — `MaxAge` and `MaxRemain` are both 30, the sweep
no-op guard does not fire, a candidate older than 30 days is deleted by
the sweep, and the surviving logical backups never exceed 30. -/
theorem c10_default_retention :
    (newWriterCfg []).maxAge = 30 ∧ (newWriterCfg []).maxRemain = 30 ∧
      ¬ ((newWriterCfg []).maxRemain = 0 ∧ (newWriterCfg []).maxAge = 0 ∧
        (newWriterCfg []).compress = false) ∧
      (∀ (files : List LogInfo) (now : Int) (f : LogInfo), f ∈ files →
        f.timestamp < now - 30 * nanosPerDay →
        f ∈ (millRunOnce (newWriterCfg []) files now).2) ∧
      ∀ (files : List LogInfo) (now : Int),
        ((millRunOnce (newWriterCfg []) files now).1.map
          (fun f => stripGz f.name)).toFinset.card ≤ 30 := by
  refine ⟨rfl, rfl, by decide, fun files now f hf hlt => ?_, fun files now => ?_⟩
  · exact (millRunOnce_age_removed (newWriterCfg []) files now (by decide)).2 f hf hlt
  · exact millRunOnce_card (newWriterCfg []) files now (by decide)

/-- C10 (witness): the default logger sweeps away a 31-day-old backup. -/
theorem c10_default_retention_witness :
    ((⟨"all-old.log", 0⟩ : LogInfo) ∈ [(⟨"all-old.log", 0⟩ : LogInfo)] ∧
        (0 : Int) < 31 * 86400000000000 - 30 * nanosPerDay) ∧
      (⟨"all-old.log", 0⟩ : LogInfo) ∈
        (millRunOnce (newWriterCfg []) [⟨"all-old.log", 0⟩] (31 * 86400000000000)).2 ∧
      ((millRunOnce (newWriterCfg []) [⟨"all-old.log", 0⟩]
        (31 * 86400000000000)).1.map (fun f => stripGz f.name)).toFinset.card ≤ 30 := by
  refine ⟨⟨List.mem_cons_self _ _, by decide⟩, ?_, ?_⟩
  · exact c10_default_retention.2.2.2.1 [⟨"all-old.log", 0⟩] (31 * 86400000000000)
      ⟨"all-old.log", 0⟩ (List.mem_cons_self _ _) (by decide)
  · exact c10_default_retention.2.2.2.2 [⟨"all-old.log", 0⟩] (31 * 86400000000000)

theorem presAfter_cons (P : List String) (f : LogInfo) (ds : List LogInfo) :
    presAfter P (f :: ds) =
      presAfter (if stripGz f.name ∈ P then P else stripGz f.name :: P) ds := rfl

theorem presAfter_concat (P : List String) (done : List LogInfo) (f : LogInfo) :
    presAfter P (done ++ [f]) =
      if stripGz f.name ∈ presAfter P done then presAfter P done
      else stripGz f.name :: presAfter P done := by
  rw [presAfter, List.foldl_append]
  rfl

theorem presAfter_len_mono (P : List String) (done : List LogInfo) :
    P.length ≤ (presAfter P done).length := by
  induction done generalizing P with
  | nil => exact le_refl _
  | cons f ds ih =>
    rw [presAfter_cons]
    refine le_trans ?_ (ih _)
    split
    · exact le_refl _
    · exact Nat.le_succ _

theorem presAfter_mem (P : List String) (done : List LogInfo) (s : String) :
    s ∈ presAfter P done ↔ s ∈ P ∨ ∃ f ∈ done, stripGz f.name = s := by
  induction done generalizing P with
  | nil => simp [presAfter]
  | cons g ds ih =>
    rw [presAfter_cons]
    by_cases hm : stripGz g.name ∈ P
    · rw [if_pos hm, ih]
      constructor
      · rintro (h1 | ⟨f, hf, hfs⟩)
        · exact Or.inl h1
        · exact Or.inr ⟨f, List.mem_cons_of_mem _ hf, hfs⟩
      · rintro (h1 | ⟨f, hf, hfs⟩)
        · exact Or.inl h1
        · rcases List.mem_cons.mp hf with rfl | hf2
          · exact Or.inl (hfs ▸ hm)
          · exact Or.inr ⟨f, hf2, hfs⟩
    · rw [if_neg hm, ih]
      constructor
      · rintro (h1 | ⟨f, hf, hfs⟩)
        · rcases List.mem_cons.mp h1 with rfl | h2
          · exact Or.inr ⟨g, List.mem_cons_self _ _, rfl⟩
          · exact Or.inl h2
        · exact Or.inr ⟨f, List.mem_cons_of_mem _ hf, hfs⟩
      · rintro (h1 | ⟨f, hf, hfs⟩)
        · exact Or.inl (List.mem_cons_of_mem _ h1)
        · rcases List.mem_cons.mp hf with rfl | hf2
          · refine Or.inl ?_
            rw [← hfs]
            exact List.mem_cons_self _ _
          · exact Or.inr ⟨f, hf2, hfs⟩

theorem presAfter_nodup (P : List String) (done : List LogInfo)
    (hP : P.Nodup) : (presAfter P done).Nodup := by
  induction done generalizing P with
  | nil => exact hP
  | cons f ds ih =>
    rw [presAfter_cons]
    refine ih _ ?_
    split
    · exact hP
    · exact List.Nodup.cons (by assumption) hP

theorem presAfter_card (done : List LogInfo) :
    (presAfter [] done).length =
      ((done.map (fun f => stripGz f.name)).toFinset).card := by
  have hnd : (presAfter [] done).Nodup := presAfter_nodup [] done List.nodup_nil
  have hset : (presAfter [] done).toFinset =
      (done.map (fun f => stripGz f.name)).toFinset := by
    ext s
    simp only [List.mem_toFinset, presAfter_mem, List.mem_map, List.not_mem_nil,
      false_or]
  rw [← hset]
  exact (List.toFinset_card_of_nodup hnd).symm

theorem take_succ_getElem {α : Type} (l : List α) (n : Nat) (h : n < l.length) :
    l.take (n + 1) = l.take n ++ [l[n]] := by
  rw [List.take_succ]
  simp [List.getElem?_eq_getElem h]

theorem millCountAux_fate (K : Int) (files : List LogInfo) (P : List String)
    (i : Nat) (hi : i < files.length) :
    (i < (millCountAux K files P).1.length ↔
      ((presAfter P (files.take (i + 1))).length : Int) ≤ K) := by
  induction files generalizing P i with
  | nil => cases hi
  | cons f fs ih =>
    simp only [millCountAux]
    set P1 := if stripGz f.name ∈ P then P else stripGz f.name :: P with hP1
    have hPA : ∀ j : Nat, presAfter P ((f :: fs).take (j + 1)) = presAfter P1 (fs.take j) := by
      intro j
      rw [List.take_succ_cons, presAfter_cons, ← hP1]
    by_cases h : (P1.length : Int) > K
    · rw [millCountAux_all_removed K fs P1 h, if_pos h]
      constructor
      · intro h2
        exact absurd h2 (Nat.not_lt_zero i)
      · intro h2
        exfalso
        have hmono : (P1.length : Int) ≤
            ((presAfter P ((f :: fs).take (i + 1))).length : Int) := by
          rw [hPA i]
          exact_mod_cast presAfter_len_mono P1 (fs.take i)
        exact lt_irrefl K (lt_of_lt_of_le (lt_of_lt_of_le h hmono) h2)
    · rw [if_neg h]
      cases i with
      | zero =>
        simp only [List.length_cons]
        constructor
        · intro _
          rw [hPA 0]
          simpa [presAfter] using not_lt.mp h
        · intro _
          exact Nat.succ_pos _
      | succ j =>
        have hj : j < fs.length := Nat.lt_of_succ_lt_succ hi
        rw [List.length_cons, Nat.succ_lt_succ_iff, ih P1 j hj, hPA (j + 1)]

theorem millCountAux_strict_older (K : Int) (files : List LogInfo)
    (hSort : files.Pairwise (fun a b => b.timestamp ≤ a.timestamp))
    (hDist : ∀ f ∈ files, ∀ g ∈ files, stripGz f.name ≠ stripGz g.name →
      f.timestamp ≠ g.timestamp) :
    ∀ f ∈ (millCountAux K files []).2, ∀ g ∈ (millCountAux K files []).1,
      f.timestamp < g.timestamp := by
  obtain ⟨m, hm⟩ := millCountAux_split K files []
  intro f hf g hg
  rw [hm] at hf hg
  obtain ⟨d, hd, hfd⟩ := List.getElem_of_mem hf
  obtain ⟨j, hj, hgj⟩ := List.getElem_of_mem hg
  have hdlen : m + d < files.length := by
    rw [List.length_drop] at hd
    omega
  have hjm : j < m := by
    rw [List.length_take] at hj
    exact lt_of_lt_of_le hj (min_le_left _ _)
  have hjlen : j < files.length := by
    rw [List.length_take] at hj
    exact lt_of_lt_of_le hj (min_le_right _ _)
  have hf2 : files[m + d] = f := by
    rw [← hfd]
    exact (List.getElem_drop files).symm
  have hg2 : files[j] = g := by
    rw [← hgj]
    exact (List.getElem_take files).symm
  have hSortIdx := List.pairwise_iff_getElem.mp hSort
  have hle : f.timestamp ≤ g.timestamp := by
    rw [← hf2, ← hg2]
    exact hSortIdx j (m + d) hjlen hdlen (lt_of_lt_of_le hjm (Nat.le_add_right m d))
  by_contra hcon
  have heq : f.timestamp = g.timestamp := le_antisymm hle (not_lt.mp hcon)
  have hwindow : ∀ p : Nat, j ≤ p → p ≤ m + d → ∀ hp : p < files.length,
      files[p].timestamp = g.timestamp := by
    intro p hp1 hp2 hp
    have hub : files[p].timestamp ≤ g.timestamp := by
      rcases Nat.eq_or_lt_of_le hp1 with rfl | hlt
      · rw [hg2]
      · rw [← hg2]
        exact hSortIdx j p hjlen hp hlt
    have hlb : f.timestamp ≤ files[p].timestamp := by
      rcases Nat.eq_or_lt_of_le hp2 with rfl | hlt
      · rw [hf2]
      · rw [← hf2]
        exact hSortIdx p (m + d) hp hdlen hlt
    exact le_antisymm hub (heq ▸ hlb)
  have hstrip : ∀ p : Nat, j ≤ p → p ≤ m + d → ∀ hp : p < files.length,
      stripGz files[p].name = stripGz g.name := by
    intro p hp1 hp2 hp
    by_cases hs : stripGz files[p].name = stripGz g.name
    · exact hs
    · exact absurd (hwindow p hp1 hp2 hp)
        (hDist files[p] (List.getElem_mem hp) g
          (by rw [← hg2]; exact List.getElem_mem hjlen) hs)
  have hstab : ∀ e : Nat, j + e ≤ m + d →
      presAfter [] (files.take (j + e + 1)) = presAfter [] (files.take (j + 1)) := by
    intro e
    induction e with
    | zero => intro _; rfl
    | succ e2 ihe =>
      intro he
      have he2 : j + e2 ≤ m + d := by omega
      have hp : j + e2 + 1 < files.length := by omega
      have hgmem : g ∈ files.take (j + e2 + 1) := by
        rw [← hg2]
        have hjlt : j < (files.take (j + e2 + 1)).length := by
          rw [List.length_take]
          omega
        have hmem := List.getElem_mem hjlt
        rw [List.getElem_take] at hmem
        exact hmem
      have hmem2 : stripGz files[j + e2 + 1].name ∈
          presAfter [] (files.take (j + e2 + 1)) := by
        rw [presAfter_mem]
        exact Or.inr ⟨g, hgmem, (hstrip (j + e2 + 1) (by omega) (by omega) hp).symm⟩
      have hstep : presAfter [] (files.take (j + e2 + 1 + 1)) =
          presAfter [] (files.take (j + e2 + 1)) := by
        rw [take_succ_getElem files (j + e2 + 1) hp, presAfter_concat, if_pos hmem2]
      calc presAfter [] (files.take (j + (e2 + 1) + 1))
          = presAfter [] (files.take (j + e2 + 1 + 1)) := rfl
        _ = presAfter [] (files.take (j + e2 + 1)) := hstep
        _ = presAfter [] (files.take (j + 1)) := ihe he2
  have hjk : j < (millCountAux K files []).1.length := by
    rw [hm, List.length_take]
    omega
  have hik : ¬ (m + d < (millCountAux K files []).1.length) := by
    rw [hm, List.length_take]
    omega
  have hKj := (millCountAux_fate K files [] j hjlen).mp hjk
  have hKi : ¬ (((presAfter [] (files.take (m + d + 1))).length : Int) ≤ K) :=
    fun hc => hik ((millCountAux_fate K files [] (m + d) hdlen).mpr hc)
  have heqPres := hstab (m + d - j) (by omega)
  rw [show j + (m + d - j) = m + d by omega] at heqPres
  refine hKi ?_
  rw [heqPres]
  exact hKj

theorem millCountAux_retains_newest (K : Int) (files : List LogInfo)
    (hSort : files.Pairwise (fun a b => b.timestamp ≤ a.timestamp)) :
    ∀ f ∈ files,
      ((((files.filter (fun g => decide (f.timestamp ≤ g.timestamp))).map
        (fun g => stripGz g.name)).toFinset.card : Int) ≤ K) →
      f ∈ (millCountAux K files []).1 := by
  intro f hf hcard
  obtain ⟨i, hi, hfi⟩ := List.getElem_of_mem hf
  have hSortIdx := List.pairwise_iff_getElem.mp hSort
  have hpres : ((presAfter [] (files.take (i + 1))).length : Int) ≤ K := by
    rw [presAfter_card]
    refine le_trans ?_ hcard
    have hsub : ((files.take (i + 1)).map (fun g => stripGz g.name)).toFinset ⊆
        ((files.filter (fun g => decide (f.timestamp ≤ g.timestamp))).map
          (fun g => stripGz g.name)).toFinset := by
      intro x hx
      rw [List.mem_toFinset, List.mem_map] at hx
      obtain ⟨g, hg, hgx⟩ := hx
      obtain ⟨j, hj, hgj⟩ := List.getElem_of_mem hg
      have hjlen : j < files.length := by
        rw [List.length_take] at hj
        exact lt_of_lt_of_le hj (min_le_right _ _)
      have hji : j < i + 1 := by
        rw [List.length_take] at hj
        exact lt_of_lt_of_le hj (min_le_left _ _)
      have hgfiles : files[j] = g := by
        rw [← hgj]
        exact (List.getElem_take files).symm
      have hts : f.timestamp ≤ g.timestamp := by
        rw [← hgfiles, ← hfi]
        rcases Nat.eq_or_lt_of_le (Nat.le_of_lt_succ hji) with rfl | hlt
        · exact le_refl _
        · exact hSortIdx j i hjlen hi hlt
      rw [List.mem_toFinset, List.mem_map]
      refine ⟨g, ?_, hgx⟩
      rw [List.mem_filter]
      exact ⟨List.mem_of_mem_take hg, decide_eq_true hts⟩
    exact_mod_cast Finset.card_le_card hsub
  have hkept := (millCountAux_fate K files [] i hi).mpr hpres
  obtain ⟨m, hm⟩ := millCountAux_split K files []
  rw [hm] at hkept ⊢
  have h2 := List.getElem_mem hkept
  rw [List.getElem_take] at h2
  rw [hfi] at h2
  exact h2

/-- C5: for every sweep pass with max-count `K > 0` over a newest-first
candidate set whose distinct logical backups carry distinct timestamps
(compressed/uncompressed pairs of one logical backup share theirs): the
retained candidates span at most `K` logical backups (stripped names),
every candidate is either retained or marked for removal, every removed
candidate is strictly older than every retained one, and every candidate
whose logical backup is among the `K` most recent (at most `K` logical
backups are at least as new as it) is retained — so the `K` most recent
logical backups are the ones kept. -/
theorem c5_count_enforcement (l : Logger) (K : Int) (files : List LogInfo)
    (now : Int) (hK : 0 < K) (hRem : l.maxRemain = K) (hAge : l.maxAge = 0)
    (hSort : files.Pairwise (fun a b => b.timestamp ≤ a.timestamp))
    (hDist : ∀ f ∈ files, ∀ g ∈ files, stripGz f.name ≠ stripGz g.name →
      f.timestamp ≠ g.timestamp) :
    ((((millRunOnce l files now).1.map (fun f => stripGz f.name)).toFinset.card : Int) ≤ K) ∧
      (∀ f ∈ files, f ∈ (millRunOnce l files now).1 ∨ f ∈ (millRunOnce l files now).2) ∧
      (∀ f ∈ (millRunOnce l files now).2, ∀ g ∈ (millRunOnce l files now).1,
        f.timestamp < g.timestamp) ∧
      ∀ f ∈ files,
        ((((files.filter (fun g => decide (f.timestamp ≤ g.timestamp))).map
          (fun g => stripGz g.name)).toFinset.card : Int) ≤ K) →
        f ∈ (millRunOnce l files now).1 := by
  have hguard : ¬ (l.maxRemain = 0 ∧ l.maxAge = 0 ∧ l.compress = false) := by
    rintro ⟨h1, -, -⟩
    rw [hRem] at h1
    rw [h1] at hK
    exact lt_irrefl 0 hK
  have hred : millRunOnce l files now =
      ((millCountStage l files).1, (millCountStage l files).2) := by
    rw [millRunOnce, if_neg hguard, millAgeStage,
      if_neg (by rw [hAge]; exact lt_irrefl 0)]
    simp
  rw [hred]
  by_cases hcond : 0 < l.maxRemain ∧ l.maxRemain < (files.length : Int)
  · have hcs : millCountStage l files = millCountAux K files [] := by
      rw [millCountStage, if_pos hcond, hRem]
    rw [hcs]
    refine ⟨?_, millCountAux_mem K files [],
      millCountAux_strict_older K files hSort hDist,
      millCountAux_retains_newest K files hSort⟩
    have h := millCountAux_card K files []
    simp only [List.toFinset_nil, Finset.union_empty, Finset.card_empty,
      Nat.max_eq_left (Nat.zero_le _)] at h
    have h2 : ((millCountAux K files []).1.map (fun f => stripGz f.name)).toFinset.card ≤
        K.toNat := le_trans h (by simp)
    calc ((((millCountAux K files []).1.map (fun f => stripGz f.name)).toFinset.card : Int))
        ≤ (K.toNat : Int) := by exact_mod_cast h2
      _ = K := Int.toNat_of_nonneg (le_of_lt hK)
  · have hcs : millCountStage l files = (files, []) := by
      rw [millCountStage, if_neg hcond]
    rw [hcs]
    refine ⟨?_, fun f hf => Or.inl hf, fun f hf => absurd hf (List.not_mem_nil f),
      fun f hf _ => hf⟩
    have hlen : (files.length : Int) ≤ K := by
      rcases not_and_or.mp hcond with h1 | h2
      · rw [hRem] at h1
        exact absurd hK h1
      · rw [hRem] at h2
        exact not_lt.mp h2
    calc (((files.map (fun f => stripGz f.name)).toFinset.card : Int))
        ≤ ((files.map (fun f => stripGz f.name)).length : Int) := by
          exact_mod_cast List.toFinset_card_le _
      _ = (files.length : Int) := by rw [List.length_map]
      _ ≤ K := hlen

/-- C5 (witness): `K = 1` over a compressed/uncompressed pair plus one
older backup. -/
theorem c5_count_enforcement_witness :
    ((0 : Int) < 1 ∧
        ([⟨"a-2.log", 200⟩, ⟨"a-2.log.gz", 200⟩, ⟨"a-1.log", 100⟩] :
          List LogInfo).Pairwise (fun a b => b.timestamp ≤ a.timestamp)) ∧
      ((((millRunOnce { defaultLogWriter with maxRemain := 1, maxAge := 0 }
          [⟨"a-2.log", 200⟩, ⟨"a-2.log.gz", 200⟩, ⟨"a-1.log", 100⟩] 0).1.map
          (fun f => stripGz f.name)).toFinset.card : Int) ≤ 1) ∧
      ((⟨"a-1.log", 100⟩ : LogInfo) ∈
        (millRunOnce { defaultLogWriter with maxRemain := 1, maxAge := 0 }
          [⟨"a-2.log", 200⟩, ⟨"a-2.log.gz", 200⟩, ⟨"a-1.log", 100⟩] 0).1 ∨
        (⟨"a-1.log", 100⟩ : LogInfo) ∈
        (millRunOnce { defaultLogWriter with maxRemain := 1, maxAge := 0 }
          [⟨"a-2.log", 200⟩, ⟨"a-2.log.gz", 200⟩, ⟨"a-1.log", 100⟩] 0).2) ∧
      (∀ f ∈ (millRunOnce { defaultLogWriter with maxRemain := 1, maxAge := 0 }
          [⟨"a-2.log", 200⟩, ⟨"a-2.log.gz", 200⟩, ⟨"a-1.log", 100⟩] 0).2,
        ∀ g ∈ (millRunOnce { defaultLogWriter with maxRemain := 1, maxAge := 0 }
          [⟨"a-2.log", 200⟩, ⟨"a-2.log.gz", 200⟩, ⟨"a-1.log", 100⟩] 0).1,
        f.timestamp < g.timestamp) ∧
      (⟨"a-2.log", 200⟩ : LogInfo) ∈
        (millRunOnce { defaultLogWriter with maxRemain := 1, maxAge := 0 }
          [⟨"a-2.log", 200⟩, ⟨"a-2.log.gz", 200⟩, ⟨"a-1.log", 100⟩] 0).1 := by
  have h := c5_count_enforcement { defaultLogWriter with maxRemain := 1, maxAge := 0 }
    1 [⟨"a-2.log", 200⟩, ⟨"a-2.log.gz", 200⟩, ⟨"a-1.log", 100⟩] 0
    (by decide) rfl rfl (by decide) (by decide)
  exact ⟨⟨by decide, by decide⟩, h.1,
    h.2.1 ⟨"a-1.log", 100⟩ (by decide), h.2.2.1,
    h.2.2.2 ⟨"a-2.log", 200⟩ (by decide) (by decide)⟩

theorem timeFromName_none_of_sw (filename pfx ext : String)
    (h : strStartsWith filename pfx = false) :
    timeFromName filename pfx ext = none := by
  simp [timeFromName, h]

theorem timeFromName_none_of_ew (filename pfx ext : String)
    (h : strEndsWith filename ext = false) :
    timeFromName filename pfx ext = none := by
  simp [timeFromName, h]

theorem classifyEntries_append (l : Logger) (xs ys : List DirEntry) :
    classifyEntries l (xs ++ ys) = classifyEntries l xs ++ classifyEntries l ys := by
  induction xs with
  | nil => rfl
  | cons d ds ih =>
    simp only [List.cons_append, classifyEntries, List.append_eq]
    by_cases hd : d.isDir
    · rw [if_pos hd, if_pos hd, ih]
    · rw [if_neg hd, if_neg hd]
      cases h1 : timeFromName d.name (pfxAndExt l).1 (pfxAndExt l).2 with
      | some t => simp only [ih, List.cons_append]
      | none =>
        cases h2 : timeFromName d.name (pfxAndExt l).1
            ((pfxAndExt l).2 ++ compressSuffix) with
        | some t2 => simp only [ih, List.cons_append]
        | none => simp only [ih]

theorem classifyEntries_cons_skip (l : Logger) (e : DirEntry) (es : List DirEntry)
    (hskip : e.isDir = true ∨
      (timeFromName e.name (pfxAndExt l).1 (pfxAndExt l).2 = none ∧
        timeFromName e.name (pfxAndExt l).1 ((pfxAndExt l).2 ++ compressSuffix) = none)) :
    classifyEntries l (e :: es) = classifyEntries l es := by
  rcases hskip with hd | ⟨h1, h2⟩
  · simp [classifyEntries, hd]
  · by_cases hd : e.isDir <;> simp [classifyEntries, hd, h1, h2]

theorem classifyEntries_name_mem (l : Logger) (entries : List DirEntry) :
    ∀ x ∈ classifyEntries l entries, ∃ d ∈ entries, d.name = x.name ∧
      d.isDir = false ∧
      ¬ (timeFromName d.name (pfxAndExt l).1 (pfxAndExt l).2 = none ∧
        timeFromName d.name (pfxAndExt l).1 ((pfxAndExt l).2 ++ compressSuffix) = none) := by
  induction entries with
  | nil => intro x hx; cases hx
  | cons d ds ih =>
    intro x hx
    simp only [classifyEntries] at hx
    by_cases hd : d.isDir
    · rw [if_pos hd] at hx
      obtain ⟨d2, hd2, rest⟩ := ih x hx
      exact ⟨d2, List.mem_cons_of_mem _ hd2, rest⟩
    · have hdf : d.isDir = false := by
        cases hdd : d.isDir with
        | false => rfl
        | true => exact absurd hdd hd
      rw [if_neg hd] at hx
      cases h1 : timeFromName d.name (pfxAndExt l).1 (pfxAndExt l).2 with
      | some t =>
        rw [h1] at hx
        rcases List.mem_cons.mp hx with rfl | hx2
        · refine ⟨d, List.mem_cons_self _ _, rfl, hdf, ?_⟩
          rintro ⟨hc, -⟩
          rw [h1] at hc
          cases hc
        · obtain ⟨d2, hd2, rest⟩ := ih x hx2
          exact ⟨d2, List.mem_cons_of_mem _ hd2, rest⟩
      | none =>
        rw [h1] at hx
        cases h2 : timeFromName d.name (pfxAndExt l).1
            ((pfxAndExt l).2 ++ compressSuffix) with
        | some t2 =>
          rw [h2] at hx
          rcases List.mem_cons.mp hx with rfl | hx2
          · refine ⟨d, List.mem_cons_self _ _, rfl, hdf, ?_⟩
            rintro ⟨-, hc⟩
            rw [h2] at hc
            cases hc
          · obtain ⟨d2, hd2, rest⟩ := ih x hx2
            exact ⟨d2, List.mem_cons_of_mem _ hd2, rest⟩
        | none =>
          rw [h2] at hx
          obtain ⟨d2, hd2, rest⟩ := ih x hx
          exact ⟨d2, List.mem_cons_of_mem _ hd2, rest⟩

theorem insertDesc_mem (f : LogInfo) (lst : List LogInfo) (x : LogInfo) :
    x ∈ insertDesc f lst ↔ x = f ∨ x ∈ lst := by
  induction lst with
  | nil => simp [insertDesc]
  | cons g gs ih =>
    simp only [insertDesc]
    split
    · simp [List.mem_cons]
    · rw [List.mem_cons, ih, List.mem_cons]
      tauto

theorem sortByTimeDesc_mem (lst : List LogInfo) (x : LogInfo) :
    x ∈ sortByTimeDesc lst ↔ x ∈ lst := by
  induction lst with
  | nil => exact Iff.rfl
  | cons g gs ih =>
    simp only [sortByTimeDesc, List.foldr_cons] at *
    rw [insertDesc_mem, List.mem_cons, ih]

theorem millCountStage_kept_subset (l : Logger) (files : List LogInfo) :
    ∀ f ∈ (millCountStage l files).1, f ∈ files := by
  rw [millCountStage]
  split
  · obtain ⟨m, hm⟩ := millCountAux_split l.maxRemain files []
    rw [hm]
    intro f hf
    exact List.take_subset m files hf
  · intro f hf
    exact hf

theorem millCountStage_removed_subset (l : Logger) (files : List LogInfo) :
    ∀ f ∈ (millCountStage l files).2, f ∈ files := by
  rw [millCountStage]
  split
  · obtain ⟨m, hm⟩ := millCountAux_split l.maxRemain files []
    rw [hm]
    intro f hf
    exact List.drop_subset m files hf
  · intro f hf
    cases hf

theorem millAgeAux_removed_subset (cutoff : Int) (files : List LogInfo) :
    ∀ f ∈ (millAgeAux cutoff files).2, f ∈ files := by
  induction files with
  | nil => intro f hf; cases hf
  | cons g fs ih =>
    intro f hf
    simp only [millAgeAux] at hf
    by_cases h : g.timestamp < cutoff
    · rw [if_pos h] at hf
      rcases List.mem_cons.mp hf with rfl | hf2
      · exact List.mem_cons_self f fs
      · exact List.mem_cons_of_mem g (ih f hf2)
    · rw [if_neg h] at hf
      exact List.mem_cons_of_mem g (ih f hf)

theorem millRunOnce_removed_subset (l : Logger) (files : List LogInfo) (now : Int) :
    ∀ f ∈ (millRunOnce l files now).2, f ∈ files := by
  rw [millRunOnce]
  split
  · intro f hf
    cases hf
  · intro f hf
    rcases List.mem_append.mp hf with h1 | h2
    · exact millCountStage_removed_subset l files f h1
    · refine millCountStage_kept_subset l files f ?_
      rw [millAgeStage] at h2
      split at h2
      · exact millAgeAux_removed_subset _ _ f h2
      · cases h2

/-- C6: an entry that is a subdirectory, or whose name has the wrong
affixes or an unparseable timestamp, is never classified as a candidate —
dropping it from the listing leaves the candidate list unchanged — and
(under distinct entry names) its name is neither among the candidates nor
among the files a sweep pass marks for removal, regardless of count or age
pressure. -/
theorem c6_non_interference (l : Logger) (entries : List DirEntry)
    (e : DirEntry) (now : Int) (he : e ∈ entries)
    (hbad : e.isDir = true ∨
      strStartsWith e.name (pfxAndExt l).1 = false ∨
      (strEndsWith e.name (pfxAndExt l).2 = false ∧
        strEndsWith e.name ((pfxAndExt l).2 ++ compressSuffix) = false) ∨
      (timeFromName e.name (pfxAndExt l).1 (pfxAndExt l).2 = none ∧
        timeFromName e.name (pfxAndExt l).1 ((pfxAndExt l).2 ++ compressSuffix) = none)) :
    (∀ es1 es2, entries = es1 ++ e :: es2 →
      classifyEntries l entries = classifyEntries l (es1 ++ es2)) ∧
      ((entries.map DirEntry.name).Nodup →
        e.name ∉ (oldLogFiles l entries).map LogInfo.name ∧
        e.name ∉ ((millRunOnce l (oldLogFiles l entries) now).2.map LogInfo.name)) := by
  have hskip : e.isDir = true ∨
      (timeFromName e.name (pfxAndExt l).1 (pfxAndExt l).2 = none ∧
        timeFromName e.name (pfxAndExt l).1 ((pfxAndExt l).2 ++ compressSuffix) = none) := by
    rcases hbad with h | h | ⟨h1, h2⟩ | h
    · exact Or.inl h
    · exact Or.inr ⟨timeFromName_none_of_sw _ _ _ h, timeFromName_none_of_sw _ _ _ h⟩
    · exact Or.inr ⟨timeFromName_none_of_ew _ _ _ h1, timeFromName_none_of_ew _ _ _ h2⟩
    · exact Or.inr h
  constructor
  · intro es1 es2 hsplit
    subst hsplit
    rw [classifyEntries_append, classifyEntries_append,
      classifyEntries_cons_skip l e es2 hskip]
  · intro hnodup
    have hnotc : e.name ∉ (oldLogFiles l entries).map LogInfo.name := by
      intro hmem
      obtain ⟨x, hx, hxname⟩ := List.mem_map.mp hmem
      rw [oldLogFiles, sortByTimeDesc_mem] at hx
      obtain ⟨d, hd, hdname, hdgood⟩ := classifyEntries_name_mem l entries x hx
      have hde : d = e :=
        List.inj_on_of_nodup_map hnodup hd he (by rw [hdname, hxname])
      subst hde
      rcases hskip with hdir | hboth
      · rw [hdgood.1] at hdir
        cases hdir
      · exact hdgood.2 hboth
    refine ⟨hnotc, fun hmem => hnotc ?_⟩
    obtain ⟨x, hx, hxname⟩ := List.mem_map.mp hmem
    exact List.mem_map.mpr
      ⟨x, millRunOnce_removed_subset l (oldLogFiles l entries) now x hx, hxname⟩

/-- C6 (witness): a directory matching the pattern, a wrong-name file, and
a real backup, under the default logger. -/
theorem c6_non_interference_witness :
    ((⟨"junk.txt", false⟩ : DirEntry) ∈
        ([⟨"all-2026-01-02T03-04-05.006.log", false⟩, ⟨"junk.txt", false⟩,
          ⟨"all-2026-01-02T03-04-05.007.log", true⟩] : List DirEntry) ∧
        strStartsWith "junk.txt" (pfxAndExt (newWriterCfg [])).1 = false) ∧
      classifyEntries (newWriterCfg [])
          [⟨"all-2026-01-02T03-04-05.006.log", false⟩, ⟨"junk.txt", false⟩,
            ⟨"all-2026-01-02T03-04-05.007.log", true⟩] =
        classifyEntries (newWriterCfg [])
          ([⟨"all-2026-01-02T03-04-05.006.log", false⟩] ++
            [⟨"all-2026-01-02T03-04-05.007.log", true⟩]) ∧
      "junk.txt" ∉ (oldLogFiles (newWriterCfg [])
        [⟨"all-2026-01-02T03-04-05.006.log", false⟩, ⟨"junk.txt", false⟩,
          ⟨"all-2026-01-02T03-04-05.007.log", true⟩]).map LogInfo.name ∧
      "junk.txt" ∉ ((millRunOnce (newWriterCfg [])
        (oldLogFiles (newWriterCfg [])
          [⟨"all-2026-01-02T03-04-05.006.log", false⟩, ⟨"junk.txt", false⟩,
            ⟨"all-2026-01-02T03-04-05.007.log", true⟩]) 0).2.map LogInfo.name) := by
  have h := c6_non_interference (newWriterCfg [])
    [⟨"all-2026-01-02T03-04-05.006.log", false⟩, ⟨"junk.txt", false⟩,
      ⟨"all-2026-01-02T03-04-05.007.log", true⟩]
    ⟨"junk.txt", false⟩ 0 (by decide) (Or.inr (Or.inl (by decide)))
  have h2 := h.2 (by decide)
  exact ⟨⟨by decide, by decide⟩,
    h.1 [⟨"all-2026-01-02T03-04-05.006.log", false⟩]
      [⟨"all-2026-01-02T03-04-05.007.log", true⟩] rfl,
    h2.1, h2.2⟩

theorem padFix_length (w n : Nat) : (padFix w n).length = w := by
  induction w generalizing n with
  | zero => rfl
  | succ w ih => simp [padFix, ih]

theorem digitChar_spec : ∀ d < 10, ('0' ≤ digitChar d ∧ digitChar d ≤ '9') ∧
    (digitChar d).toNat - 48 = d ∧
    ∀ e < 10, (digitChar d < digitChar e ↔ d < e) ∧
      (digitChar d = digitChar e ↔ d = e) := by decide

theorem nat_lt_iff_div_mod (c a b : Nat) (hc : 0 < c) :
    a < b ↔ a / c < b / c ∨ (a / c = b / c ∧ a % c < b % c) := by
  constructor
  · intro hab
    rcases Nat.lt_trichotomy (a / c) (b / c) with h | h | h
    · exact Or.inl h
    · refine Or.inr ⟨h, ?_⟩
      have ha := Nat.div_add_mod a c
      have hb := Nat.div_add_mod b c
      rw [← ha, ← hb, h] at hab
      exact Nat.lt_of_add_lt_add_left hab
    · have hle := Nat.div_le_div_right (c := c) (le_of_lt hab)
      exact absurd hle (not_le.mpr h)
  · intro hor
    rcases hor with h | ⟨h, hm⟩
    · have h1 : a / c + 1 ≤ b / c := h
      have h2 : c * (a / c) + a % c = a := Nat.div_add_mod a c
      have h3 : c * (b / c) + b % c = b := Nat.div_add_mod b c
      have h4 : a % c < c := Nat.mod_lt a hc
      have h5 : c * (a / c + 1) ≤ c * (b / c) := Nat.mul_le_mul_left c h1
      calc a = c * (a / c) + a % c := h2.symm
        _ < c * (a / c) + c := Nat.add_lt_add_left h4 _
        _ = c * (a / c + 1) := (Nat.mul_succ c (a / c)).symm
        _ ≤ c * (b / c) := h5
        _ ≤ c * (b / c) + b % c := Nat.le_add_right _ _
        _ = b := h3
    · have h2 : c * (a / c) + a % c = a := Nat.div_add_mod a c
      have h3 : c * (b / c) + b % c = b := Nat.div_add_mod b c
      rw [← h2, ← h3, h]
      exact Nat.add_lt_add_left hm _

theorem nat_eq_iff_div_mod (c a b : Nat) :
    a = b ↔ a / c = b / c ∧ a % c = b % c := by
  constructor
  · rintro rfl
    exact ⟨rfl, rfl⟩
  · rintro ⟨h1, h2⟩
    have ha := Nat.div_add_mod a c
    have hb := Nat.div_add_mod b c
    rw [← ha, ← hb, h1, h2]

theorem lex_cons_iff (a b : Char) (l1 l2 : List Char) :
    (a :: l1) < (b :: l2) ↔ a < b ∨ (a = b ∧ l1 < l2) := by
  constructor
  · intro h
    cases h with
    | cons h2 => exact Or.inr ⟨rfl, h2⟩
    | rel h2 => exact Or.inl h2
  · rintro (h | ⟨rfl, h⟩)
    · exact List.Lex.rel h
    · exact List.Lex.cons h

theorem lex_append_iff : ∀ (xs ys r1 r2 : List Char), xs.length = ys.length →
    ((xs ++ r1) < (ys ++ r2) ↔ xs < ys ∨ (xs = ys ∧ r1 < r2)) := by
  intro xs
  induction xs with
  | nil =>
    intro ys r1 r2 hl
    cases ys with
    | nil =>
      constructor
      · intro h
        exact Or.inr ⟨rfl, h⟩
      · rintro (h | ⟨-, h⟩)
        · cases h
        · exact h
    | cons b ys2 => simp at hl
  | cons a xs2 ih =>
    intro ys r1 r2 hl
    cases ys with
    | nil => simp at hl
    | cons b ys2 =>
      have hl2 : xs2.length = ys2.length := by simpa using hl
      simp only [List.cons_append]
      rw [lex_cons_iff, ih ys2 r1 r2 hl2, lex_cons_iff]
      simp only [List.cons.injEq]
      tauto

theorem lex_append_same (q a b : List Char) : (q ++ a) < (q ++ b) ↔ a < b := by
  rw [lex_append_iff q q a b rfl]
  simp [lt_irrefl]

theorem lex_cons_same (c : Char) (r1 r2 : List Char) :
    (c :: r1) < (c :: r2) ↔ r1 < r2 := by
  rw [lex_cons_iff]
  simp [lt_irrefl]

theorem padFix_lt_iff : ∀ (w a b : Nat), a < 10 ^ w → b < 10 ^ w →
    (padFix w a < padFix w b ↔ a < b) := by
  intro w
  induction w with
  | zero =>
    intro a b ha hb
    have ha0 : a = 0 := Nat.lt_one_iff.mp ha
    have hb0 : b = 0 := Nat.lt_one_iff.mp hb
    subst ha0
    subst hb0
    simp [padFix, lt_irrefl]
  | succ w ih =>
    intro a b ha hb
    have hpow : 0 < 10 ^ w := pow_pos (by norm_num) w
    have hda : a / 10 ^ w < 10 := by
      rw [Nat.div_lt_iff_lt_mul hpow]
      rw [pow_succ] at ha
      omega
    have hdb : b / 10 ^ w < 10 := by
      rw [Nat.div_lt_iff_lt_mul hpow]
      rw [pow_succ] at hb
      omega
    simp only [padFix]
    rw [lex_cons_iff, ((digitChar_spec _ hda).2.2 _ hdb).1,
      ((digitChar_spec _ hda).2.2 _ hdb).2,
      ih (a % 10 ^ w) (b % 10 ^ w) (Nat.mod_lt a hpow) (Nat.mod_lt b hpow),
      nat_lt_iff_div_mod (10 ^ w) a b hpow]

theorem padFix_eq_iff : ∀ (w a b : Nat), a < 10 ^ w → b < 10 ^ w →
    (padFix w a = padFix w b ↔ a = b) := by
  intro w
  induction w with
  | zero =>
    intro a b ha hb
    have ha0 : a = 0 := Nat.lt_one_iff.mp ha
    have hb0 : b = 0 := Nat.lt_one_iff.mp hb
    subst ha0
    subst hb0
    simp [padFix]
  | succ w ih =>
    intro a b ha hb
    have hpow : 0 < 10 ^ w := pow_pos (by norm_num) w
    have hda : a / 10 ^ w < 10 := by
      rw [Nat.div_lt_iff_lt_mul hpow]
      rw [pow_succ] at ha
      omega
    have hdb : b / 10 ^ w < 10 := by
      rw [Nat.div_lt_iff_lt_mul hpow]
      rw [pow_succ] at hb
      omega
    simp only [padFix, List.cons.injEq]
    rw [((digitChar_spec _ hda).2.2 _ hdb).2,
      ih (a % 10 ^ w) (b % 10 ^ w) (Nat.mod_lt a hpow) (Nat.mod_lt b hpow),
      nat_eq_iff_div_mod (10 ^ w) a b]

theorem lex_field_step (w a b : Nat) (r1 r2 : List Char)
    (ha : a < 10 ^ w) (hb : b < 10 ^ w) :
    ((padFix w a ++ r1) < (padFix w b ++ r2)) ↔ a < b ∨ (a = b ∧ r1 < r2) := by
  rw [lex_append_iff _ _ _ _ (by rw [padFix_length, padFix_length]),
    padFix_lt_iff w a b ha hb, padFix_eq_iff w a b ha hb]

theorem daysInMonth_le (y m : Nat) : daysInMonth y m ≤ 31 := by
  unfold daysInMonth
  split
  · split
    · omega
    · omega
  · split
    · omega
    · omega

theorem padNum_eq_padFix (w n : Nat) (h : n < 10 ^ w) : padNum w n = padFix w n :=
  if_pos h

theorem validTime_bounds (t : DateTime) (h : ValidTime t) :
    t.year < 10 ^ 4 ∧ t.month < 10 ^ 2 ∧ t.day < 10 ^ 2 ∧ t.hour < 10 ^ 2 ∧
      t.minute < 10 ^ 2 ∧ t.second < 10 ^ 2 ∧ t.milli < 10 ^ 3 := by
  obtain ⟨h1, h2, h3, h4, h5, h6, h7, h8, h9⟩ := h
  have hd := daysInMonth_le t.year t.month
  have e4 : (10 : Nat) ^ 4 = 10000 := by norm_num
  have e2 : (10 : Nat) ^ 2 = 100 := by norm_num
  have e3 : (10 : Nat) ^ 3 = 1000 := by norm_num
  rw [e4, e2, e3]
  omega

theorem formatDT_lex (t1 t2 : DateTime) (E : List Char)
    (h1 : ValidTime t1) (h2 : ValidTime t2) :
    ((formatDT t1 ++ E) < (formatDT t2 ++ E)) ↔ chronoLt t1 t2 := by
  obtain ⟨hy1, hmo1, hd1, hh1, hmi1, hs1, hms1⟩ := validTime_bounds t1 h1
  obtain ⟨hy2, hmo2, hd2, hh2, hmi2, hs2, hms2⟩ := validTime_bounds t2 h2
  rw [formatDT, formatDT,
    padNum_eq_padFix _ _ hy1, padNum_eq_padFix _ _ hmo1, padNum_eq_padFix _ _ hd1,
    padNum_eq_padFix _ _ hh1, padNum_eq_padFix _ _ hmi1, padNum_eq_padFix _ _ hs1,
    padNum_eq_padFix _ _ hms1,
    padNum_eq_padFix _ _ hy2, padNum_eq_padFix _ _ hmo2, padNum_eq_padFix _ _ hd2,
    padNum_eq_padFix _ _ hh2, padNum_eq_padFix _ _ hmi2, padNum_eq_padFix _ _ hs2,
    padNum_eq_padFix _ _ hms2]
  simp only [List.append_assoc, List.cons_append]
  rw [lex_field_step 4 _ _ _ _ hy1 hy2, lex_cons_same,
    lex_field_step 2 _ _ _ _ hmo1 hmo2, lex_cons_same,
    lex_field_step 2 _ _ _ _ hd1 hd2, lex_cons_same,
    lex_field_step 2 _ _ _ _ hh1 hh2, lex_cons_same,
    lex_field_step 2 _ _ _ _ hmi1 hmi2, lex_cons_same,
    lex_field_step 2 _ _ _ _ hs1 hs2, lex_cons_same,
    lex_field_step 3 _ _ _ _ hms1 hms2, lt_self_iff_false]
  simp only [chronoLt, and_false, or_false]

theorem readFixAux_padFix : ∀ (w acc n : Nat) (rest : List Char), n < 10 ^ w →
    readFixAux w acc (padFix w n ++ rest) = some (acc * 10 ^ w + n, rest) := by
  intro w
  induction w with
  | zero =>
    intro acc n rest hn
    have hn0 : n = 0 := Nat.lt_one_iff.mp hn
    subst hn0
    simp [padFix, readFixAux]
  | succ w ih =>
    intro acc n rest hn
    have hpow : 0 < 10 ^ w := pow_pos (by norm_num) w
    have hd : n / 10 ^ w < 10 := by
      rw [Nat.div_lt_iff_lt_mul hpow]
      rw [pow_succ] at hn
      omega
    have hdigit := (digitChar_spec _ hd).1
    have htoNat := (digitChar_spec _ hd).2.1
    simp only [padFix, List.cons_append, readFixAux, List.append_eq]
    rw [if_pos hdigit, htoNat,
      ih (acc * 10 + n / 10 ^ w) (n % 10 ^ w) rest (Nat.mod_lt n hpow)]
    have key : (acc * 10 + n / 10 ^ w) * 10 ^ w + n % 10 ^ w =
        acc * 10 ^ (w + 1) + n := by
      have hdm : 10 ^ w * (n / 10 ^ w) + n % 10 ^ w = n := Nat.div_add_mod n (10 ^ w)
      calc (acc * 10 + n / 10 ^ w) * 10 ^ w + n % 10 ^ w
          = acc * (10 ^ w * 10) + (10 ^ w * (n / 10 ^ w) + n % 10 ^ w) := by ring
        _ = acc * (10 ^ w * 10) + n := by rw [hdm]
        _ = acc * 10 ^ (w + 1) + n := by rw [pow_succ]
    rw [key]

theorem readFix_padFix (w n : Nat) (h : n < 10 ^ w) (rest : List Char) :
    readFix w (padFix w n ++ rest) = some (n, rest) := by
  rw [readFix, readFixAux_padFix w 0 n rest h]
  simp

theorem readFix_padFix_nil (w n : Nat) (h : n < 10 ^ w) :
    readFix w (padFix w n) = some (n, []) := by
  have h2 := readFix_padFix w n h []
  rwa [List.append_nil] at h2

theorem parseDT_formatDT (t : DateTime) (h : ValidTime t) :
    parseDT (formatDT t) = some t := by
  obtain ⟨hy, hmo, hd, hh, hmi, hs, hms⟩ := validTime_bounds t h
  obtain ⟨v1, v2, v3, v4, v5, v6, v7, v8, v9⟩ := h
  rw [formatDT, padNum_eq_padFix _ _ hy, padNum_eq_padFix _ _ hmo,
    padNum_eq_padFix _ _ hd, padNum_eq_padFix _ _ hh, padNum_eq_padFix _ _ hmi,
    padNum_eq_padFix _ _ hs, padNum_eq_padFix _ _ hms]
  simp only [List.append_assoc, List.cons_append]
  simp only [parseDT, readFix_padFix 4 _ hy, readFix_padFix 2 _ hmo,
    readFix_padFix 2 _ hd, readFix_padFix 2 _ hh, readFix_padFix 2 _ hmi,
    readFix_padFix 2 _ hs, readFix_padFix_nil 3 _ hms, expectChar,
    Option.bind_eq_bind, Option.some_bind, if_true]
  rw [if_pos ⟨trivial, v1, v2, v3, v4, v5, v6, v7⟩]

theorem joinPath_data (dir s : String) :
    (joinPath dir s).data =
      (if dir = "" then [] else dir.data ++ "/".data) ++ s.data := by
  rw [joinPath]
  split
  · simp
  · simp [String.data_append]

theorem timeFromName_roundtrip (fname : String) (t : DateTime) (h : ValidTime t) :
    timeFromName (stemOf fname ++ "-" ++ formatBackupTime t ++ filepathExt fname)
      (stemOf fname ++ "-") (filepathExt fname) = some t := by
  have hbase : (stemOf fname ++ "-" ++ formatBackupTime t ++ filepathExt fname).data =
      ((stemOf fname ++ "-").data ++ formatDT t) ++ (filepathExt fname).data := by
    simp only [String.data_append, formatBackupTime, ofChars, List.append_assoc]
  have hsw : strStartsWith (stemOf fname ++ "-" ++ formatBackupTime t ++ filepathExt fname)
      (stemOf fname ++ "-") = true := by
    apply decide_eq_true
    rw [hbase, List.append_assoc]
    exact List.take_left _ _
  have hew : strEndsWith (stemOf fname ++ "-" ++ formatBackupTime t ++ filepathExt fname)
      (filepathExt fname) = true := by
    apply decide_eq_true
    constructor
    · rw [hbase]
      simp only [List.length_append]
      omega
    · rw [hbase]
      have hlen : (((stemOf fname ++ "-").data ++ formatDT t) ++
            (filepathExt fname).data).length - (filepathExt fname).data.length =
          ((stemOf fname ++ "-").data ++ formatDT t).length := by
        simp only [List.length_append]
        omega
      rw [hlen]
      exact List.drop_left _ _
  rw [timeFromName, hsw, hew]
  rw [if_neg (fun hh => Bool.noConfusion hh), if_neg (fun hh => Bool.noConfusion hh)]
  have hslice : ((stemOf fname ++ "-" ++ formatBackupTime t ++
        filepathExt fname).data.take
        ((stemOf fname ++ "-" ++ formatBackupTime t ++ filepathExt fname).data.length -
          (filepathExt fname).data.length)).drop (stemOf fname ++ "-").data.length =
      formatDT t := by
    rw [hbase]
    have hlen : (((stemOf fname ++ "-").data ++ formatDT t) ++
          (filepathExt fname).data).length - (filepathExt fname).data.length =
        ((stemOf fname ++ "-").data ++ formatDT t).length := by
      simp only [List.length_append]
      omega
    rw [hlen, List.take_left, List.drop_left]
  rw [hslice]
  simp only [parseBackupTime, ofChars]
  exact parseDT_formatDT t h

/-- C8: the Backup Namer produces `directory/stem-TIMESTAMP.ext`, where the
timestamp is the fixed-width rendering (4-digit year; 2-digit month, day,
hour, minute and second; 3-digit fractional second); the classifier's
timestamp parse recovers the formatted time from every such base name
(round trip), and lexicographic order of two such names from the same
logger agrees with chronological order of their timestamps. -/
theorem c8_backup_name_format (dir fname : String) (t t1 t2 : DateTime)
    (h : ValidTime t) (h1 : ValidTime t1) (h2 : ValidTime t2) :
    backupName dir fname t =
      joinPath dir (stemOf fname ++ "-" ++ formatBackupTime t ++ filepathExt fname) ∧
      (formatBackupTime t).data =
        padFix 4 t.year ++ ('-' :: padFix 2 t.month) ++ ('-' :: padFix 2 t.day) ++
          ('T' :: padFix 2 t.hour) ++ ('-' :: padFix 2 t.minute) ++
          ('-' :: padFix 2 t.second) ++ ('.' :: padFix 3 t.milli) ∧
      timeFromName (stemOf fname ++ "-" ++ formatBackupTime t ++ filepathExt fname)
        (stemOf fname ++ "-") (filepathExt fname) = some t ∧
      (backupName dir fname t1 < backupName dir fname t2 ↔ chronoLt t1 t2) := by
  obtain ⟨hy, hmo, hd, hh, hmi, hs, hms⟩ := validTime_bounds t h
  refine ⟨rfl, ?_, timeFromName_roundtrip fname t h, ?_⟩
  · simp only [formatBackupTime, ofChars, formatDT,
      padNum_eq_padFix _ _ hy, padNum_eq_padFix _ _ hmo, padNum_eq_padFix _ _ hd,
      padNum_eq_padFix _ _ hh, padNum_eq_padFix _ _ hmi, padNum_eq_padFix _ _ hs,
      padNum_eq_padFix _ _ hms]
  · have hn : ∀ t' : DateTime, (backupName dir fname t').data =
        ((if dir = "" then ([] : List Char) else dir.data ++ "/".data) ++
            ((stemOf fname).data ++ "-".data)) ++
          (formatDT t' ++ (filepathExt fname).data) := by
      intro t'
      rw [backupName, joinPath_data]
      simp only [String.data_append, formatBackupTime, ofChars, List.append_assoc]
    rw [String.lt_iff_toList_lt]
    show (backupName dir fname t1).data < (backupName dir fname t2).data ↔ _
    rw [hn t1, hn t2, lex_append_same, formatDT_lex t1 t2 _ h1 h2]

/-- C8 (witness): two timestamps one second apart under `logs/all.log`. -/
theorem c8_backup_name_format_witness :
    (ValidTime fixTime ∧ ValidTime ⟨2026, 1, 2, 3, 4, 6, 5⟩) ∧
      backupName "logs" "all.log" fixTime =
        joinPath "logs" (stemOf "all.log" ++ "-" ++ formatBackupTime fixTime ++
          filepathExt "all.log") ∧
      timeFromName (stemOf "all.log" ++ "-" ++ formatBackupTime fixTime ++
          filepathExt "all.log") (stemOf "all.log" ++ "-") (filepathExt "all.log") =
        some fixTime ∧
      (backupName "logs" "all.log" fixTime <
          backupName "logs" "all.log" ⟨2026, 1, 2, 3, 4, 6, 5⟩ ↔
        chronoLt fixTime ⟨2026, 1, 2, 3, 4, 6, 5⟩) := by
  have hA := c8_backup_name_format "logs" "all.log" fixTime fixTime
    ⟨2026, 1, 2, 3, 4, 6, 5⟩ (by decide) (by decide) (by decide)
  exact ⟨⟨by decide, by decide⟩, hA.1, hA.2.2.1, hA.2.2.2⟩
